import Mathlib

/-!
Verification development for the MARI4 conversation-context engine and task
scheduler.  The Python sources under `src/common/llm/` (`context.py`,
`tools.py`, `session.py`) and `src/cogs/chat/scheduler.py` are shallowly
embedded as executable Lean definitions: datetimes become integers (seconds),
the tiktoken tokenizer becomes an abstract parameter `tokenizer : String → Nat`,
Python dicts become association lists, and Python object identity is modelled
by a `uid : Nat` field carried by every message record (distinct live objects
have distinct uids).  Fallible operations return `Except`.
-/

/-! ## A small JSON value type, modelling the dict / json.dumps world of the source. -/

/-- JSON values, as produced and consumed by the Python source via plain dicts. -/
inductive Json where
  | null : Json
  | bool (b : Bool) : Json
  | num (n : Int) : Json
  | str (s : String) : Json
  | arr (elems : List Json) : Json
  | obj (fields : List (String × Json)) : Json
deriving Repr

/-- Escape one character the way Python json.dumps does for the characters that
matter here (quote, backslash and common control characters). -/
def jsonEscapeChar (c : Char) : String :=
  if c = '"' then "\\\""
  else if c = '\\' then "\\\\"
  else if c = '\n' then "\\n"
  else if c = '\t' then "\\t"
  else if c = '\r' then "\\r"
  else String.singleton c

/-- Escape a string for JSON output. -/
def jsonEscape (s : String) : String :=
  s.foldl (fun acc c => acc ++ jsonEscapeChar c) ""

mutual
/-- Model of Python json.dumps with the default separators, as used by
`ToolResponseRecord.to_payload` and `ToolCallRecord.to_payload` in context.py. -/
def jsonDumps : Json → String
  | .null => "null"
  | .bool true => "true"
  | .bool false => "false"
  | .num n => toString n
  | .str s => "\"" ++ jsonEscape s ++ "\""
  | .arr elems => "[" ++ jsonDumpsList elems ++ "]"
  | .obj fields => "\x7b" ++ jsonDumpsFields fields ++ "\x7d"

/-- Comma-separated rendering of a JSON array body. -/
def jsonDumpsList : List Json → String
  | [] => ""
  | [x] => jsonDumps x
  | x :: rest => jsonDumps x ++ ", " ++ jsonDumpsList rest

/-- Comma-separated rendering of a JSON object body. -/
def jsonDumpsFields : List (String × Json) → String
  | [] => ""
  | [(k, v)] => "\"" ++ jsonEscape k ++ "\": " ++ jsonDumps v
  | (k, v) :: rest =>
      "\"" ++ jsonEscape k ++ "\": " ++ jsonDumps v ++ ", " ++ jsonDumpsFields rest
end

/-! ## Content components (context.py, `ContentComponent` and subclasses). -/

/-- Payload data of a content component: the `data` dict of `ContentComponent`. -/
inductive CompData where
  | textData (text : String) : CompData
  | imageData (url : String) (detail : String) : CompData
deriving Repr

/-- `ContentComponent`: one piece of message content, with its wire `type`
string, payload `data` and pre-computed `token_count`. -/
structure ContentComponent where
  type : String
  data : CompData
  token_count : Nat
deriving Repr

/-- `TextComponent.__init__`: token cost is the tokenizer count of the text. -/
def TextComponent (tokenizer : String → Nat) (text : String) : ContentComponent :=
  { type := "text", data := .textData text, token_count := tokenizer text }

/-- `ImageComponent.__init__`: fixed token estimate of 250. -/
def ImageComponent (url : String) (detail : String) : ContentComponent :=
  { type := "image_url", data := .imageData url detail, token_count := 250 }

/-- Render the generic (non-REFERENCE) metadata text of
`MetadataComponent.__init__`: an upper-cased tag with lower-cased keys.  The
REFERENCE branch is only reachable from the Discord ingest path, which is
outside this development. -/
def renderMetadata (title : String) (metadata : List (String × String)) : String :=
  "<" ++ title.toUpper ++
    (if metadata.isEmpty then "" else
      " " ++ String.intercalate " " (metadata.map fun p => p.1.toLower ++ "=" ++ p.2)) ++
  ">"

/-- `MetadataComponent.__init__` (generic branch): a text component whose text
is the rendered tag and whose cost is its token count. -/
def MetadataComponent (tokenizer : String → Nat) (title : String)
    (metadata : List (String × String)) : ContentComponent :=
  let text := renderMetadata title metadata
  { type := "text", data := .textData text, token_count := tokenizer text }

/-! ## Message records (context.py, `MessageRecord` and subclasses). -/

/-- `ToolCallRecord`: one tool call requested by the model. -/
structure ToolCallRecord where
  id : String
  function_name : String
  arguments : Json
deriving Repr

/-- Values stored in a record's free-form `metadata` dict. -/
inductive MetaVal where
  | bool (b : Bool) : MetaVal
  | int (i : Int) : MetaVal
  | str (s : String) : MetaVal
  | time (t : Int) : MetaVal
  | map (fields : List (String × MetaVal)) : MetaVal
deriving Repr

/-- The subclass-specific payload of a record: a plain `MessageRecord`, an
`AssistantRecord` (tool calls and finish reason) or a `ToolResponseRecord`
(tool call id and structured response data). -/
inductive RecordKind where
  | base : RecordKind
  | assistant (tool_calls : List ToolCallRecord) (finish_reason : Option String) : RecordKind
  | toolResponse (tool_call_id : String) (response_data : Json) : RecordKind
deriving Repr

/-- `MessageRecord`: one entry of the conversation history.  `uid` models
Python object identity (`is`); `created_at` is a timestamp in seconds. -/
structure MessageRecord where
  uid : Nat
  role : String
  components : List ContentComponent
  created_at : Int
  name : Option String := none
  metadata : List (String × MetaVal) := []
  kind : RecordKind := .base
deriving Repr

/-- `MessageRecord.token_count`: sum of the component costs. -/
def MessageRecord.token_count (m : MessageRecord) : Nat :=
  (m.components.map ContentComponent.token_count).sum

/-- `MessageRecord.full_text`: concatenated text of the text components. -/
def MessageRecord.full_text (m : MessageRecord) : String :=
  String.join (m.components.filterMap fun c =>
    match c.type, c.data with
    | "text", .textData t => some t
    | _, _ => none)

/-- `MessageRecord.contains_image`. -/
def MessageRecord.contains_image (m : MessageRecord) : Bool :=
  m.components.any fun c => c.type == "image_url"

/-! ## Wire payloads (`to_payload` methods). -/

/-- The `content` field of a wire payload: null, a flat JSON string, or a list
of component payload dicts. -/
inductive PayloadContent where
  | null : PayloadContent
  | str (s : String) : PayloadContent
  | comps (cs : List Json) : PayloadContent
deriving Repr

/-- One message of the wire payload sent to the completion API. -/
structure MsgPayload where
  role : String
  content : PayloadContent
  name : Option String := none
  tool_calls : Option (List Json) := none
  tool_call_id : Option String := none
deriving Repr

/-- `ContentComponent.to_payload`: the component's `data` dict. -/
def ContentComponent.to_payload (c : ContentComponent) : Json :=
  match c.data with
  | .textData t => .obj [("type", .str "text"), ("text", .str t)]
  | .imageData url detail =>
      .obj [("type", .str "image_url"),
            ("image_url", .obj [("url", .str url), ("detail", .str detail)])]

/-- `ToolCallRecord.to_payload`: OpenAI function-call dict with the arguments
re-encoded as a JSON string. -/
def ToolCallRecord.to_payload (tc : ToolCallRecord) : Json :=
  .obj [("id", .str tc.id),
        ("type", .str "function"),
        ("function", .obj [("name", .str tc.function_name),
                           ("arguments", .str (jsonDumps tc.arguments))])]

/-- `MessageRecord.to_payload`, with the `AssistantRecord` and
`ToolResponseRecord` overrides dispatched on the record kind.  An assistant
record with tool calls serializes with null content; a tool response record
serializes its response data as a single JSON string. -/
def MessageRecord.to_payload (m : MessageRecord) : MsgPayload :=
  match m.kind with
  | .assistant tool_calls _ =>
      if tool_calls.isEmpty then
        { role := m.role,
          content := .comps (m.components.map ContentComponent.to_payload),
          name := m.name }
      else
        { role := "assistant",
          tool_calls := some (tool_calls.map ToolCallRecord.to_payload),
          content := .null }
  | .toolResponse tool_call_id response_data =>
      { role := "tool",
        content := .str (jsonDumps response_data),
        tool_call_id := some tool_call_id }
  | .base =>
      { role := m.role,
        content := .comps (m.components.map ContentComponent.to_payload),
        name := m.name }

/-! ## Conversation context (context.py, `ConversationContext`). -/

/-- `ConversationContext`: the per-channel record log with its token window
(`0` or negative means unlimited) and max age (seconds). -/
structure ConversationContext where
  developer_prompt : String
  context_window : Int
  context_age : Int
  messages : List MessageRecord
deriving Repr

/-- `ConversationContext.add_message`: append a record. -/
def ConversationContext.add_message (ctx : ConversationContext) (m : MessageRecord) :
    ConversationContext :=
  { ctx with messages := ctx.messages ++ [m] }

/-- Step 1 of `trim`: drop records whose age reaches the context age. -/
def ageFilter (now age : Int) (msgs : List MessageRecord) : List MessageRecord :=
  msgs.filter fun m => decide (now - m.created_at < age)

/-- One step of the token-budget loop of `trim` (step 2), processing one
record, newest first.  State is `(valid_messages, total_tokens)`; Python's
`insert(0, message)` is the prepend. -/
def tokenBudgetFold (W : Int) (acc : List MessageRecord × Int) (m : MessageRecord) :
    List MessageRecord × Int :=
  let valid := acc.1
  let total := acc.2
  let tok : Int := m.token_count
  if valid.isEmpty ∧ (W ≤ 0 ∨ W ≤ tok) then
    (m :: valid, if 0 < W then min tok W else tok)
  else if W ≤ 0 ∨ total + tok ≤ W then
    (m :: valid, total + tok)
  else
    (valid, total)

/-- Step 2 of `trim`: the token-budget pass over the records, newest to
oldest. -/
def tokenBudget (W : Int) (msgs : List MessageRecord) : List MessageRecord :=
  (msgs.reverse.foldl (tokenBudgetFold W) ([], 0)).1

/-- Id list of an assistant record's tool calls (`{tc.id for tc in tool_calls}`,
kept as a list since only membership and subset tests are performed on it). -/
def asstCallIds (m : MessageRecord) : List String :=
  match m.kind with
  | .assistant tool_calls _ => tool_calls.map ToolCallRecord.id
  | _ => []

/-- Whether a record passes `role == 'assistant' and isinstance(m, AssistantRecord)`. -/
def isAssistantRec (m : MessageRecord) : Bool :=
  m.role == "assistant" &&
    (match m.kind with | .assistant _ _ => true | _ => false)

/-- Whether a record passes `role == 'tool' and isinstance(m, ToolResponseRecord)`. -/
def isToolRespRec (m : MessageRecord) : Bool :=
  m.role == "tool" &&
    (match m.kind with | .toolResponse _ _ => true | _ => false)

/-- The `tool_call_id` of a tool response record (empty for other records). -/
def toolRespId (m : MessageRecord) : String :=
  match m.kind with
  | .toolResponse tool_call_id _ => tool_call_id
  | _ => ""

/-- First cleanup pass of `trim`: collect assistant→tool-call-id map while
dropping tool responses with no preceding kept assistant carrying their id.
Returns `(cleaned_messages, assistant_tool_map, resolved_tool_ids)`. -/
def cleanupPass1 :
    List MessageRecord → List (MessageRecord × List String) → List String →
    List MessageRecord × List (MessageRecord × List String) × List String
  | [], amap, resolved => ([], amap, resolved)
  | m :: rest, amap, resolved =>
    if isAssistantRec m then
      let amap' := if (asstCallIds m).isEmpty then amap else amap ++ [(m, asstCallIds m)]
      let out := cleanupPass1 rest amap' resolved
      (m :: out.1, out.2)
    else if isToolRespRec m then
      if amap.any (fun p => p.2.contains (toolRespId m)) then
        let out := cleanupPass1 rest amap (resolved ++ [toolRespId m])
        (m :: out.1, out.2)
      else
        cleanupPass1 rest amap resolved
    else
      let out := cleanupPass1 rest amap resolved
      (m :: out.1, out.2)

/-- Second cleanup pass of `trim`: drop assistants whose tool-call id set is
not fully resolved, together with (`skip_tool_ids`) all their tool responses.
Python's identity test `assistant is message` is uid equality. -/
def cleanupPass2 (amap : List (MessageRecord × List String)) (resolved : List String) :
    List MessageRecord → List String → List MessageRecord
  | [], _ => []
  | m :: rest, skip =>
    if m.role == "assistant" then
      match amap.find? (fun p => p.1.uid == m.uid) with
      | some p =>
        if ¬ p.2.isEmpty then
          if p.2.all (fun i => resolved.contains i) then
            m :: cleanupPass2 amap resolved rest skip
          else
            cleanupPass2 amap resolved rest (skip ++ p.2)
        else
          m :: cleanupPass2 amap resolved rest skip
      | none => m :: cleanupPass2 amap resolved rest skip
    else if isToolRespRec m then
      if skip.contains (toolRespId m) then
        cleanupPass2 amap resolved rest skip
      else
        m :: cleanupPass2 amap resolved rest skip
    else
      m :: cleanupPass2 amap resolved rest skip

/-- Step 3 of `trim`: the tool-call-pairing cleanup (both passes). -/
def cleanupToolPairs (msgs : List MessageRecord) : List MessageRecord :=
  let out := cleanupPass1 msgs [] []
  if out.2.1.isEmpty then out.1 else cleanupPass2 out.2.1 out.2.2 out.1 []

/-- `ConversationContext.trim`: age filter, then token-budget pass, then
tool-call-pairing cleanup, at the given current time. -/
def ConversationContext.trim (ctx : ConversationContext) (now : Int) : ConversationContext :=
  { ctx with messages :=
      cleanupToolPairs (tokenBudget ctx.context_window
        (ageFilter now ctx.context_age ctx.messages)) }

/-- `ConversationContext.filter_images`: strip all image components. -/
def ConversationContext.filter_images (ctx : ConversationContext) : ConversationContext :=
  { ctx with messages := ctx.messages.map fun m =>
      { m with components := m.components.filter fun c => c.type != "image_url" } }

/-- `ConversationContext.prepare_payload`: trim, then serialize a fresh
developer record followed by the surviving history.  Returns the payload and
the mutated context. -/
def ConversationContext.prepare_payload (ctx : ConversationContext)
    (tokenizer : String → Nat) (now : Int) :
    List MsgPayload × ConversationContext :=
  let ctx' := ctx.trim now
  let dev : MessageRecord :=
    { uid := 0, role := "developer",
      components := [TextComponent tokenizer ctx'.developer_prompt],
      created_at := now }
  ((dev :: ctx'.messages).map MessageRecord.to_payload, ctx')

/-- Total token count of a record list. -/
def sumTokens (l : List MessageRecord) : Nat :=
  (l.map MessageRecord.token_count).sum

/-! ## Tools (tools.py, `Tool` and `Tool.execute`). -/

/-- What a tool handler returns on success: either an already-built
`ToolResponseRecord` (passed through) or a plain value (wrapped). -/
inductive HandlerResult where
  | record (r : MessageRecord) : HandlerResult
  | value (v : Json) : HandlerResult

/-- `Tool`: an invocable tool definition.  The handler models the sync or
async `function(tool_call, context_data)`; a Python exception is `.error`. -/
structure Tool where
  name : String
  description : String
  properties : List (String × Json)
  function : ToolCallRecord → Except String HandlerResult
  extras : List (String × Json) := []

/-- `ToolResponseRecord.__init__`: role `tool`, one text component holding the
JSON-dumped response data. -/
def mkToolResponseRecord (tokenizer : String → Nat) (uid : Nat)
    (tool_call_id : String) (response_data : Json) (created_at : Int)
    (metadata : List (String × MetaVal) := []) : MessageRecord :=
  { uid := uid, role := "tool",
    components := [TextComponent tokenizer (jsonDumps response_data)],
    created_at := created_at,
    metadata := metadata,
    kind := .toolResponse tool_call_id response_data }

/-- `Tool.execute`: run the handler; pass through a returned record, wrap a
returned dict directly and any other value under a `result` key, and convert a
raised exception into an error response record instead of propagating it. -/
def Tool.execute (t : Tool) (tokenizer : String → Nat) (uid : Nat)
    (tool_call : ToolCallRecord) (now : Int) : MessageRecord :=
  match t.function tool_call with
  | .ok (.record r) => r
  | .ok (.value v) =>
      match v with
      | .obj fields => mkToolResponseRecord tokenizer uid tool_call.id (.obj fields) now
      | other => mkToolResponseRecord tokenizer uid tool_call.id (.obj [("result", other)]) now
  | .error e =>
      mkToolResponseRecord tokenizer uid tool_call.id (.obj [("error", .str e)]) now

/-- `Tool.to_openai_dict`: strict function-calling declaration where every
declared property is required. -/
def Tool.to_openai_dict (t : Tool) : Json :=
  .obj [("type", .str "function"),
        ("function", .obj
          [("name", .str t.name),
           ("description", .str t.description),
           ("strict", .bool true),
           ("parameters", .obj
             [("type", .str "object"),
              ("properties", .obj t.properties),
              ("required", .arr (t.properties.map fun p => .str p.1)),
              ("additionalProperties", .bool false)])])]

/-! ## Channel session (session.py): completion loop and autonomous tasks. -/

/-- One model response (`completion.choices[0].message`): textual content
(empty string models Python None or empty) plus requested tool calls. -/
structure ModelResponse where
  content : String
  tool_calls : List ToolCallRecord
  finish_reason : Option String := none
deriving Repr

/-- The mutable per-session state touched by the completion loop: the current
`self.context`, `self._tool_call_counter`, `self._total_tool_calls_in_session`
and a fresh-uid source standing for Python object allocation. -/
structure SessionSt where
  context : ConversationContext
  toolCounter : Option (List (String × Nat)) := none
  totalToolCalls : Nat := 0
  nextUid : Nat := 1
deriving Repr

/-- The loop's external collaborators: the tokenizer, the tool registry
(`tool_registry.get` is a find by name), the completion client (a stream of
responses indexed by API-call number, erring like a transport exception) and
the developer prompt template. -/
structure CompletionEnv where
  tokenizer : String → Nat
  registry : List Tool
  stream : Nat → Except String ModelResponse
  devPromptTemplate : String

/-- `ToolRegistry.get`. -/
def registryGet (tools : List Tool) (name : String) : Option Tool :=
  tools.find? fun t => t.name == name

/-- Read a per-tool counter (`defaultdict(int)` read). -/
def counterGet (c : List (String × Nat)) (k : String) : Nat :=
  match c.find? (fun p => p.1 == k) with
  | some p => p.2
  | none => 0

/-- Increment a per-tool counter (`counter[k] += 1`). -/
def counterInc (c : List (String × Nat)) (k : String) : List (String × Nat) :=
  if c.any (fun p => p.1 == k) then
    c.map fun p => if p.1 == k then (p.1, p.2 + 1) else p
  else
    c ++ [(k, 1)]

/-- Set a key of a record metadata dict (`metadata[k] = v`). -/
def metaSet (md : List (String × MetaVal)) (k : String) (v : MetaVal) :
    List (String × MetaVal) :=
  if md.any (fun p => p.1 == k) then
    md.map fun p => if p.1 == k then (p.1, v) else p
  else
    md ++ [(k, v)]

/-- MAX_RECURSION_DEPTH of `_run_completion_unsafe`. -/
def MAX_RECURSION_DEPTH : Nat := 10

/-- `self._max_tool_calls_per_completion`. -/
def MAX_TOOL_CALLS_PER_COMPLETION : Nat := 20

/-- The canned fail-soft text returned when the recursion depth ceiling is
reached. -/
def cannedDepthLimitText : String :=
  "Désolée, j\x27ai atteint la limite d\x27appels d\x27outils. Peux-tu reformuler ta demande de manière plus simple ?"

/-- The canned fail-soft text returned when the cumulative tool-call ceiling is
reached. -/
def cannedToolLimitText : String :=
  "Désolée, j\x27ai fait trop d\x27appels d\x27outils. Peux-tu reformuler ta demande de manière plus précise ?"

/-- The structured error sent to the model when `schedule_task` is invoked more
than five times in one completion. -/
def scheduleLimitError : String :=
  "Limite atteinte : maximum 5 tâches programmées dans la même exécution."

/-- `ConversationContext.add_assistant_message` (and `AssistantRecord.__init__`):
append an assistant record, `tool_calls or []`. -/
def addAssistantMessage (_tokenizer : String → Nat) (now : Int)
    (components : List ContentComponent) (tool_calls : List ToolCallRecord)
    (finish_reason : Option String) (metadata : List (String × MetaVal))
    (st : SessionSt) : MessageRecord × SessionSt :=
  let rec0 : MessageRecord :=
    { uid := st.nextUid, role := "assistant", components := components,
      created_at := now, metadata := metadata,
      kind := .assistant tool_calls finish_reason }
  (rec0, { st with context := st.context.add_message rec0, nextUid := st.nextUid + 1 })

/-- `ConversationContext.add_user_message`: append a user record. -/
def addUserMessage (_tokenizer : String → Nat) (now : Int)
    (components : List ContentComponent) (name : String)
    (metadata : List (String × MetaVal)) (st : SessionSt) :
    MessageRecord × SessionSt :=
  let rec0 : MessageRecord :=
    { uid := st.nextUid, role := "user", components := components,
      created_at := now, name := some name, metadata := metadata }
  (rec0, { st with context := st.context.add_message rec0, nextUid := st.nextUid + 1 })

/-- `ChannelSession._execute_tools`: run the tool calls in order, appending
each response to the context.  The `schedule_task` tool is additionally capped
at five invocations per completion; an unknown tool name is skipped. -/
def executeTools (tokenizer : String → Nat) (registry : List Tool) (now : Int)
    (tool_calls : List ToolCallRecord) (st : SessionSt) : SessionSt :=
  tool_calls.foldl (fun st call =>
    let counter := st.toolCounter.getD []
    let counter := counterInc counter call.function_name
    let st := { st with toolCounter := some counter }
    if call.function_name == "schedule_task" ∧
        5 < counterGet counter "schedule_task" then
      let resp := mkToolResponseRecord tokenizer st.nextUid call.id
        (.obj [("error", .str scheduleLimitError)]) now
        [("header", .str "Limite de planification atteinte")]
      { st with context := st.context.add_message resp, nextUid := st.nextUid + 1 }
    else
      match registryGet registry call.function_name with
      | none => st
      | some tool =>
        let resp := tool.execute tokenizer st.nextUid call now
        { st with context := st.context.add_message resp, nextUid := st.nextUid + 1 })
    st

/-- Python `'invalid_image_url' in str(e)`. -/
def strContains (hay needle : String) : Bool :=
  (List.range (hay.length + 1)).any fun i => needle.data.isPrefixOf (hay.data.drop i)

/-- The `finally` of `_run_completion_unsafe`: a root call resets
`self._tool_call_counter` to None on the way out. -/
def finallyResetCounter (is_root : Bool) (st : SessionSt) : SessionSt :=
  if is_root then { st with toolCounter := none } else st

/-- The body of one `_run_completion_unsafe` invocation below the depth check
(attachment processing is external I/O and touches only the components of the
last user record, so the trigger-less form is modelled): the tool-call-count
gate, the payload preparation (which trims), the API call with its one-shot
no-image retry, and the three continuations (execute tools and recurse, nudge
an empty response and recurse, or return the assistant record).  `recur` is
the recursive call at depth + 1; `callIdx` indexes the response stream; the
result carries the record or the propagated exception, the final state and the
next call index. -/
def runCompletionStep (env : CompletionEnv) (now : Int)
    (recur : Nat → SessionSt → Except String MessageRecord × SessionSt × Nat)
    (callIdx : Nat) (st : SessionSt) :
    Except String MessageRecord × SessionSt × Nat :=
      let is_root := st.toolCounter.isNone
      let st := if is_root then { st with toolCounter := some [], totalToolCalls := 0 } else st
      if MAX_TOOL_CALLS_PER_COMPLETION ≤ st.totalToolCalls then
        -- global tool-call ceiling, checked before the try block
        let out := addAssistantMessage env.tokenizer now
          [TextComponent env.tokenizer cannedToolLimitText] [] none
          [("created_at", .time now)] st
        (.ok out.1, out.2, callIdx)
      else
        -- try block: refresh the developer prompt, prepare the payload (trims),
        -- call the API with a one-shot no-image retry on invalid_image_url
        let st := { st with context :=
          { st.context with developer_prompt := env.devPromptTemplate } }
        let st := { st with context := (st.context.prepare_payload env.tokenizer now).2 }
        let afterCall : Except String ModelResponse × SessionSt × Nat :=
          match env.stream callIdx with
          | .ok resp => (.ok resp, st, callIdx + 1)
          | .error e =>
            if strContains e "invalid_image_url" then
              let st := { st with context := st.context.filter_images }
              let st := { st with context := (st.context.prepare_payload env.tokenizer now).2 }
              (env.stream (callIdx + 1), st, callIdx + 2)
            else
              (.error e, st, callIdx + 1)
        match afterCall with
        | (.error e, st, idx) => (.error e, finallyResetCounter is_root st, idx)
        | (.ok resp, st, idx) =>
          let components :=
            if resp.content ≠ "" then [TextComponent env.tokenizer resp.content]
            else [MetadataComponent env.tokenizer "EMPTY" []]
          let tool_calls := resp.tool_calls
          let st := { st with totalToolCalls := st.totalToolCalls + tool_calls.length }
          let out := addAssistantMessage env.tokenizer now components tool_calls
            resp.finish_reason [] st
          let arec := out.1
          let st := out.2
          if ¬ tool_calls.isEmpty then
            let st := executeTools env.tokenizer env.registry now tool_calls st
            let rOut := recur idx st
            (rOut.1, finallyResetCounter is_root rOut.2.1, rOut.2.2)
          else if resp.content = "" ∨ resp.content.trim = "" then
            -- empty response: pop the just-added record, nudge, recurse
            let st :=
              match st.context.messages.getLast? with
              | some m =>
                if m.uid == arec.uid then
                  { st with context :=
                    { st.context with messages := st.context.messages.dropLast } }
                else st
              | none => st
            let uOut := addUserMessage env.tokenizer now
              [TextComponent env.tokenizer "[SYSTEM] Reponds maintenant au dernier message."]
              ("system") [] st
            let rOut := recur idx uOut.2
            (rOut.1, finallyResetCounter is_root rOut.2.1, rOut.2.2)
          else
            (.ok arec, finallyResetCounter is_root st, idx)

/-- `ChannelSession._run_completion_unsafe` in the trigger-less form used by
recursive calls and autonomous tasks, as a function of the remaining recursion
gas `MAX_RECURSION_DEPTH - recursion_depth`: at gas 0 the depth ceiling is
reached (before the counter is touched) and a canned response is returned;
otherwise one `runCompletionStep` runs with the recursion at smaller gas. -/
def runCompletionAux (env : CompletionEnv) (now : Int) :
    Nat → Nat → SessionSt → Except String MessageRecord × SessionSt × Nat
  | 0, callIdx, st =>
      let out := addAssistantMessage env.tokenizer now
        [TextComponent env.tokenizer cannedDepthLimitText] [] none
        [("created_at", .time now)] st
      (.ok out.1, out.2, callIdx)
  | gas+1, callIdx, st =>
      runCompletionStep env now (runCompletionAux env now gas) callIdx st

/-- `_run_completion_unsafe` entered at a given recursion depth. -/
def runCompletionUnsafe (env : CompletionEnv) (now : Int) (recursion_depth : Nat)
    (callIdx : Nat) (st : SessionSt) :
    Except String MessageRecord × SessionSt × Nat :=
  runCompletionAux env now (MAX_RECURSION_DEPTH - recursion_depth) callIdx st

/-- `_clone_component` of `run_autonomous_task`. -/
def cloneComponent (tokenizer : String → Nat) (c : ContentComponent) : ContentComponent :=
  match c.type, c.data with
  | "text", .textData t => TextComponent tokenizer t
  | "image_url", .imageData url detail => ImageComponent url detail
  | _, .textData t => TextComponent tokenizer t
  | _, .imageData _ _ => TextComponent tokenizer ""

/-- `ChannelSession.run_autonomous_task`: run the completion inside a fresh
isolated context seeded with a synthetic user record, restore the shared
context and the tool-call counter in `finally`, then clone only the assistant
records of the isolated run back into the shared context. -/
def runAutonomousTask (env : CompletionEnv) (now : Int) (user_name : String)
    (user_id : Int) (task_prompt : String) (st : SessionSt) :
    Except String MessageRecord × SessionSt :=
  let isolated : ConversationContext :=
    { developer_prompt := env.devPromptTemplate,
      context_window := st.context.context_window,
      context_age := st.context.context_age,
      messages := [] }
  let uRec : MessageRecord :=
    { uid := st.nextUid, role := "user",
      components := [TextComponent env.tokenizer task_prompt],
      created_at := now, name := some user_name,
      metadata := [("autonomous_task", .bool true), ("task_owner_id", .int user_id)] }
  let isolated := isolated.add_message uRec
  let original_context := st.context
  let original_tool_counter := st.toolCounter
  let st1 : SessionSt :=
    { st with context := isolated, toolCounter := none, nextUid := st.nextUid + 1 }
  let start_index := isolated.messages.length
  let rOut := runCompletionUnsafe env now 0 0 st1
  -- finally: restore the shared context and counter before anything else
  let st2 : SessionSt :=
    { rOut.2.1 with context := original_context, toolCounter := original_tool_counter }
  match rOut.1 with
  | .error e => (.error e, st2)
  | .ok _ =>
    let new_messages := rOut.2.1.context.messages.drop start_index
    let folded := new_messages.foldl (fun (acc : Option MessageRecord × SessionSt) msg =>
      if msg.role == "assistant" then
        let cloned_components := msg.components.map (cloneComponent env.tokenizer)
        let cloned_tool_calls :=
          match msg.kind with
          | .assistant tcs _ => tcs.map fun c =>
              { id := c.id, function_name := c.function_name, arguments := c.arguments }
          | _ => []
        let md := metaSet (metaSet msg.metadata "autonomous_task" (.bool true))
          "task_owner_id" (.int user_id)
        let fr := match msg.kind with | .assistant _ f => f | _ => none
        -- metadata is passed as a keyword and lands inside **metadata
        let out := addAssistantMessage env.tokenizer now cloned_components
          cloned_tool_calls fr [("metadata", .map (md.map fun p => (p.1, p.2)))] acc.2
        (some out.1, out.2)
      else
        acc)
      ((none : Option MessageRecord), st2)
    match folded.1 with
    | some arec => (.ok arec, folded.2)
    | none =>
      let out := addAssistantMessage env.tokenizer now
        [TextComponent env.tokenizer "Échec de la tâche autonome (réponse vide)."] [] none
        [("metadata", .map
           [("autonomous_task", .bool true), ("task_owner_id", .int user_id),
            ("error", .bool true)])]
        folded.2
      (.ok out.1, out.2)

/-! ## Task scheduler store (scheduler.py, `TaskDatabase`). -/

/-- `ScheduledTask`: one persisted task row.  Timestamps are integers; the
store writes uniformly formatted UTC ISO strings, whose lexicographic order
agrees with this chronological order. -/
structure ScheduledTask where
  id : Int
  channel_id : Int
  user_id : Int
  task_description : String
  execute_at : Int
  created_at : Int
  status : String
  message_id : Int := 0
deriving Repr, DecidableEq

/-- Row predicate of the conditional UPDATE in `cancel_task`: owner check only
when a user id is supplied, and `status = 'pending'` always. -/
def cancelMatches (task_id : Int) (user_id : Option Int) (t : ScheduledTask) : Bool :=
  match user_id with
  | some uid => t.id == task_id && t.user_id == uid && t.status == "pending"
  | none => t.id == task_id && t.status == "pending"

/-- `TaskDatabase.cancel_task`: conditionally set matching rows to
`cancelled`; the returned flag is `cursor.rowcount > 0`. -/
def cancel_task (db : List ScheduledTask) (task_id : Int) (user_id : Option Int) :
    List ScheduledTask × Bool :=
  (db.map fun t => if cancelMatches task_id user_id t then { t with status := "cancelled" } else t,
   decide (0 < db.countP (cancelMatches task_id user_id)))

/-- The comparison of `ORDER BY execute_at ASC`. -/
def taskLE (a b : ScheduledTask) : Prop := a.execute_at ≤ b.execute_at

instance : DecidableRel taskLE := fun a b => inferInstanceAs (Decidable (a.execute_at ≤ b.execute_at))

instance : IsTotal ScheduledTask taskLE := ⟨fun a b => Int.le_total a.execute_at b.execute_at⟩

instance : IsTrans ScheduledTask taskLE := ⟨fun _ _ _ h h' => le_trans h h'⟩

/-- Row predicate of `get_pending_tasks`. -/
def pendingDue (now : Int) (t : ScheduledTask) : Bool :=
  t.status == "pending" && decide (t.execute_at ≤ now)

/-- `TaskDatabase.get_pending_tasks`: the pending rows whose execution time has
arrived, ordered ascending by `execute_at`. -/
def get_pending_tasks (db : List ScheduledTask) (now : Int) : List ScheduledTask :=
  (db.filter (pendingDue now)).insertionSort taskLE

/-- Tokenizer used by concrete instances: the character count. -/
def lenTokenizer : String → Nat := String.length

/-- Concrete tool-call list for the C5 witness. -/
def c5calls : List ToolCallRecord :=
  [{ id := "call1", function_name := "f", arguments := .null }]

/-- Concrete assistant record with a tool call. -/
def c5asst : MessageRecord :=
  { uid := 1, role := "assistant", components := [], created_at := 0,
    kind := .assistant c5calls none }

/-- Concrete tool response record. -/
def c5resp : MessageRecord :=
  mkToolResponseRecord lenTokenizer 2 ("call1") (.obj [("ok", .bool true)]) 0

/-- A tool whose handler always raises. -/
def c7tool : Tool :=
  { name := "boomtool", description := "", properties := [],
    function := fun _ => .error ("kaput") }

/-- A concrete call to the failing tool. -/
def c7call : ToolCallRecord :=
  { id := "call9", function_name := "boomtool", arguments := .null }

/-- Concrete store for the C8 witness: one pending task owned by user 7. -/
def c8db : List ScheduledTask :=
  [{ id := 1, channel_id := 100, user_id := 7, task_description := "remind",
     execute_at := 50, created_at := 10, status := "pending", message_id := 0 },
   { id := 2, channel_id := 100, user_id := 8, task_description := "done",
     execute_at := 20, created_at := 5, status := "completed", message_id := 0 }]

/-- Environment whose completion client always raises. -/
def c10env : CompletionEnv :=
  { tokenizer := lenTokenizer, registry := [],
    stream := fun _ => .error ("boom"), devPromptTemplate := "dev" }

/-- A session with an empty shared history. -/
def c10st : SessionSt :=
  { context := { developer_prompt := "dev", context_window := 1000,
                 context_age := 1000, messages := [] },
    toolCounter := none, totalToolCalls := 0, nextUid := 1 }

/-- An echo tool whose handler always succeeds. -/
def echoTool : Tool :=
  { name := "echo", description := "", properties := [],
    function := fun _ => .ok (.value (.obj [("ok", .bool true)])) }

/-- Twenty-one tool calls carried by one model response. -/
def c6calls : List ToolCallRecord :=
  (List.range 21).map fun i =>
    { id := toString i, function_name := "echo", arguments := .null }

/-- Environment whose first response carries 21 tool calls and whose later
responses are plain text. -/
def c6env : CompletionEnv :=
  { tokenizer := lenTokenizer, registry := [echoTool],
    stream := fun n =>
      if n = 0 then .ok { content := "", tool_calls := c6calls }
      else .ok { content := "done", tool_calls := [] },
    devPromptTemplate := "dev" }

/-- A fresh session for the C6 runs. -/
def c6st : SessionSt :=
  { context := { developer_prompt := "dev", context_window := 100000,
                 context_age := 100000, messages := [] },
    toolCounter := none, totalToolCalls := 0, nextUid := 1 }

/-- A response that always requests one echo tool call. -/
def c6wResp : ModelResponse :=
  { content := "", tool_calls := [{ id := "x", function_name := "echo", arguments := .null }] }

/-- Environment whose model always requests another tool call. -/
def c6wEnv : CompletionEnv :=
  { tokenizer := lenTokenizer, registry := [echoTool],
    stream := fun _ => .ok c6wResp, devPromptTemplate := "dev" }

/-- A session stuck at the tool-call ceiling with the counter initialised. -/
def c6wStGate : SessionSt :=
  { context := { developer_prompt := "dev", context_window := 100000,
                 context_age := 100000, messages := [] },
    toolCounter := some [], totalToolCalls := 20, nextUid := 1 }

/-- Record with one token (uid 1, oldest). -/
def c2recA : MessageRecord :=
  { uid := 1, role := "user", components := [TextComponent lenTokenizer ("a")],
    created_at := 0 }

/-- Record with one hundred tokens (uid 2, middle). -/
def c2recB : MessageRecord :=
  { uid := 2, role := "user",
    components := [TextComponent lenTokenizer (String.mk (List.replicate 100 'a'))],
    created_at := 0 }

/-- Record with five tokens (uid 3, newest). -/
def c2recC : MessageRecord :=
  { uid := 3, role := "user", components := [TextComponent lenTokenizer ("abcde")],
    created_at := 0 }

/-- A context with window 10 over the three records. -/
def c2ctx : ConversationContext :=
  { developer_prompt := "", context_window := 10, context_age := 1000,
    messages := [c2recA, c2recB, c2recC] }

/-- A zero-token record (uid 10, oldest). -/
def c1zero : MessageRecord :=
  { uid := 10, role := "user", components := [TextComponent lenTokenizer ("")],
    created_at := 0 }

/-- A two-token record (uid 11, newest), exceeding the window of 1. -/
def c1big : MessageRecord :=
  { uid := 11, role := "user", components := [TextComponent lenTokenizer ("ab")],
    created_at := 0 }

/-- A context with window 1 holding the zero-token record and the oversized
newest record. -/
def c1ctx : ConversationContext :=
  { developer_prompt := "", context_window := 1, context_age := 1000,
    messages := [c1zero, c1big] }

/-- Assistant record with one tool call for the C3 witness. -/
def c3asst : MessageRecord :=
  { uid := 1, role := "assistant", components := [], created_at := 0,
    kind := .assistant [{ id := "call1", function_name := "f", arguments := .null }] none }

/-- The matching tool response. -/
def c3resp : MessageRecord :=
  { uid := 2, role := "tool", components := [TextComponent lenTokenizer ("x")],
    created_at := 0, kind := .toolResponse "call1" .null }

/-- A context pairing the assistant with its response. -/
def c3ctx : ConversationContext :=
  { developer_prompt := "", context_window := 1000, context_age := 1000,
    messages := [c3asst, c3resp] }

/-! ## General helper lemmas. -/

/-- A map whose function fixes every member is the identity. -/
theorem map_eq_self_of_forall {α : Type} (l : List α) (f : α → α)
    (h : ∀ x ∈ l, f x = x) : l.map f = l := by
  induction l with
  | nil => rfl
  | cons a l ih =>
    simp only [List.map_cons, List.cons.injEq]
    exact ⟨h a (by simp), ih fun x hx => h x (by simp [hx])⟩

/-! ## Claim C5: serialization contract of the payload builders. -/

/-- C5: an assistant record with a non-empty tool-call list serializes with
null content alongside the tool-call list, and a tool response record always
serializes its content as a single JSON-encoded string together with its
tool call id, never as a list of content components. -/
theorem serialization_contract :
    (∀ (m : MessageRecord) (tcs : List ToolCallRecord) (fr : Option String),
      m.kind = .assistant tcs fr → tcs ≠ [] →
        m.to_payload.content = .null ∧
        m.to_payload.tool_calls = some (tcs.map ToolCallRecord.to_payload)) ∧
    (∀ (m : MessageRecord) (tid : String) (dat : Json),
      m.kind = .toolResponse tid dat →
        m.to_payload.content = .str (jsonDumps dat) ∧
        m.to_payload.tool_call_id = some tid ∧
        ∀ cs, m.to_payload.content ≠ .comps cs) := by
  constructor
  · intro m tcs fr hk hne
    have hE : tcs.isEmpty = false := by
      cases tcs with
      | nil => exact absurd rfl hne
      | cons a l => rfl
    unfold MessageRecord.to_payload
    rw [hk]
    simp [hE]
  · intro m tid dat hk
    unfold MessageRecord.to_payload
    rw [hk]
    refine ⟨rfl, rfl, fun cs h => PayloadContent.noConfusion h⟩

/-- Witness for C5: the contract evaluated at concrete records. -/
theorem serialization_contract_witness :
    c5asst.to_payload.content = .null ∧
    c5resp.to_payload.content = .str (jsonDumps (.obj [("ok", .bool true)])) :=
  ⟨(serialization_contract.1 c5asst c5calls none rfl (by simp [c5calls])).1,
   (serialization_contract.2 c5resp ("call1") (.obj [("ok", .bool true)]) rfl).1⟩

/-! ## Claim C7: tool handler failures are caught. -/

/-- C7: for every handler and every tool call, a raised exception is converted
into a tool response record whose payload carries the exception text and whose
tool call id is the id of the call, instead of propagating. -/
theorem tool_execute_catches :
    ∀ (t : Tool) (tokenizer : String → Nat) (uid : Nat) (call : ToolCallRecord)
      (now : Int) (e : String),
      t.function call = .error e →
        (t.execute tokenizer uid call now).role = "tool" ∧
        (t.execute tokenizer uid call now).kind =
          .toolResponse call.id (.obj [("error", .str e)]) := by
  intro t tokenizer uid call now e h
  unfold Tool.execute
  rw [h]
  exact ⟨rfl, rfl⟩

/-- Witness for C7 at a concrete failing handler. -/
theorem tool_execute_catches_witness :
    c7tool.function c7call = .error ("kaput") ∧
    (c7tool.execute lenTokenizer 3 c7call 0).kind =
      .toolResponse c7call.id (.obj [("error", .str ("kaput"))]) :=
  ⟨rfl, (tool_execute_catches c7tool lenTokenizer 3 c7call 0 ("kaput") rfl).2⟩

/-! ## Claim C8: cancel_task semantics. -/

/-- C8: with a user id, `cancel_task` flips exactly the pending tasks with the
given id owned by that user and reports whether a row changed; without a user
id it needs no ownership; a false flag means the store is unchanged, and every
stored row is either untouched or a cancelled copy of a matching pending row. -/
theorem cancel_task_spec (db : List ScheduledTask) (task_id : Int) :
    (∀ uid : Int,
      ((cancel_task db task_id (some uid)).2 = true ↔
        ∃ t ∈ db, t.id = task_id ∧ t.user_id = uid ∧ t.status = "pending")) ∧
    ((cancel_task db task_id none).2 = true ↔
      ∃ t ∈ db, t.id = task_id ∧ t.status = "pending") ∧
    (∀ ouid : Option Int, (cancel_task db task_id ouid).2 = false →
      (cancel_task db task_id ouid).1 = db) ∧
    (∀ (ouid : Option Int) (t' : ScheduledTask), t' ∈ (cancel_task db task_id ouid).1 →
      t' ∈ db ∨
      (t'.status = "cancelled" ∧ t'.id = task_id ∧
        { t' with status := "pending" } ∈ db ∧
        ∀ uid : Int, ouid = some uid → t'.user_id = uid)) := by
  refine ⟨?_, ?_, ?_, ?_⟩
  · intro uid
    simp only [cancel_task, decide_eq_true_eq]
    rw [List.countP_pos_iff]
    constructor
    · rintro ⟨t, ht, hm⟩
      simp only [cancelMatches, Bool.and_eq_true, beq_iff_eq] at hm
      exact ⟨t, ht, hm.1.1, hm.1.2, hm.2⟩
    · rintro ⟨t, ht, h1, h2, h3⟩
      exact ⟨t, ht, by simp [cancelMatches, h1, h2, h3]⟩
  · simp only [cancel_task, decide_eq_true_eq]
    rw [List.countP_pos_iff]
    constructor
    · rintro ⟨t, ht, hm⟩
      simp only [cancelMatches, Bool.and_eq_true, beq_iff_eq] at hm
      exact ⟨t, ht, hm.1, hm.2⟩
    · rintro ⟨t, ht, h1, h2⟩
      exact ⟨t, ht, by simp [cancelMatches, h1, h2]⟩
  · intro ouid h
    simp only [cancel_task, decide_eq_false_iff_not, not_lt, Nat.le_zero] at h
    have hnone := List.countP_eq_zero.mp h
    simp only [cancel_task]
    exact map_eq_self_of_forall _ _ fun t ht => if_neg (by simpa using hnone t ht)
  · intro ouid t' ht'
    simp only [cancel_task, List.mem_map] at ht'
    obtain ⟨t, ht, heq⟩ := ht'
    by_cases hm : cancelMatches task_id ouid t = true
    · right
      rw [if_pos hm] at heq
      subst heq
      cases ouid with
      | some uid =>
        simp only [cancelMatches, Bool.and_eq_true, beq_iff_eq] at hm
        refine ⟨rfl, hm.1.1, ?_, ?_⟩
        · have heq2 : ({ { t with status := "cancelled" } with status := "pending" } :
              ScheduledTask) = t := by
            obtain ⟨i, c, u, d, ex, cr, s, mi⟩ := t
            simp_all
          rw [heq2]
          exact ht
        · intro u hu
          cases hu
          exact hm.1.2
      | none =>
        simp only [cancelMatches, Bool.and_eq_true, beq_iff_eq] at hm
        refine ⟨rfl, hm.1, ?_, ?_⟩
        · have heq2 : ({ { t with status := "cancelled" } with status := "pending" } :
              ScheduledTask) = t := by
            obtain ⟨i, c, u, d, ex, cr, s, mi⟩ := t
            simp_all
          rw [heq2]
          exact ht
        · intro u hu
          exact Option.noConfusion hu
    · left
      rw [if_neg hm] at heq
      exact heq ▸ ht

/-- Witness for C8: cancelling with the wrong owner reports no change and
leaves the store unchanged. -/
theorem cancel_task_spec_witness :
    ((cancel_task c8db 1 (some 9)).2 = false) ∧
    (cancel_task c8db 1 (some 9)).1 = c8db :=
  ⟨by decide, (cancel_task_spec c8db 1).2.2.1 (some 9) (by decide)⟩

/-! ## Claim C9: due-task selection. -/

/-- C9: `get_pending_tasks` returns exactly the stored pending tasks whose
execution time has arrived, ordered ascending by execution time. -/
theorem get_pending_tasks_spec (db : List ScheduledTask) (now : Int) :
    (get_pending_tasks db now).Perm (db.filter (pendingDue now)) ∧
    List.Sorted taskLE (get_pending_tasks db now) ∧
    ∀ t : ScheduledTask, t ∈ get_pending_tasks db now ↔
      (t ∈ db ∧ t.status = "pending" ∧ t.execute_at ≤ now) := by
  refine ⟨List.perm_insertionSort _ _, List.sorted_insertionSort _ _, ?_⟩
  intro t
  have hp : (get_pending_tasks db now).Perm (db.filter (pendingDue now)) :=
    List.perm_insertionSort _ _
  rw [hp.mem_iff, List.mem_filter]
  simp [pendingDue, Bool.and_eq_true, beq_iff_eq, and_assoc]

/-! ## Claim C10: autonomous-task failure restores the shared session state. -/

/-- C10: if the completion run inside `run_autonomous_task` raises, the
`finally` block restores the shared conversation context and the
per-completion tool-call counter to their pre-call values before the exception
propagates, so the shared history gains no records from the failed run. -/
theorem autonomous_task_error_restores :
    ∀ (env : CompletionEnv) (now : Int) (user_name : String) (user_id : Int)
      (task_prompt : String) (st : SessionSt) (e : String),
      (runAutonomousTask env now user_name user_id task_prompt st).1 = .error e →
        (runAutonomousTask env now user_name user_id task_prompt st).2.context = st.context ∧
        (runAutonomousTask env now user_name user_id task_prompt st).2.toolCounter
          = st.toolCounter := by
  intro env now un uid tp st e h
  unfold runAutonomousTask at h ⊢
  dsimp only at h ⊢
  split at h
  next => exact ⟨rfl, rfl⟩
  next =>
    split at h
    next => simp at h
    next => simp at h

/-- Witness for C10: the failing run propagates the error and the shared
context is unchanged. -/
theorem autonomous_task_error_restores_witness :
    (runAutonomousTask c10env 0 ("u") 5 ("task") c10st).1 = .error ("boom") ∧
    (runAutonomousTask c10env 0 ("u") 5 ("task") c10st).2.context = c10st.context :=
  ⟨rfl,
   (autonomous_task_error_restores c10env 0 ("u") 5 ("task") c10st ("boom") rfl).1⟩

/-! ## Claim C6: completion-loop ceilings. -/

/-- The full text of a record holding one text component is that text. -/
theorem full_text_singleTC (tokenizer : String → Nat) (s : String) (uid : Nat) (now : Int)
    (tcs : List ToolCallRecord) (fr : Option String) (md : List (String × MetaVal)) :
    MessageRecord.full_text
      { uid := uid, role := "assistant", components := [TextComponent tokenizer s],
        created_at := now, metadata := md, kind := .assistant tcs fr } = s := by
  rfl

/-- `_execute_tools` keeps the tool-call counter initialised. -/
theorem executeTools_isSome (tokenizer : String → Nat) (registry : List Tool) (now : Int) :
    ∀ (calls : List ToolCallRecord) (st : SessionSt), st.toolCounter.isSome = true →
      (executeTools tokenizer registry now calls st).toolCounter.isSome = true := by
  intro calls
  induction calls with
  | nil => intro st h; exact h
  | cons c rest ih =>
    intro st h
    show (executeTools tokenizer registry now rest _).toolCounter.isSome = true
    apply ih
    simp only [executeTools, List.foldl_cons]
    split
    · simp
    · split <;> simp

/-- If every model response requests further tool calls, every non-root
completion invocation ends in one of the two canned fail-soft records. -/
theorem runCompletionAux_ceiling (env : CompletionEnv) (now : Int)
    (hok : ∀ n, (env.stream n).isOk = true)
    (htc : ∀ n r, env.stream n = .ok r → r.tool_calls.isEmpty = false) :
    ∀ (gas callIdx : Nat) (st : SessionSt), st.toolCounter.isSome = true →
      ∃ r st2 idx, runCompletionAux env now gas callIdx st = (.ok r, st2, idx) ∧
        (r.full_text = cannedDepthLimitText ∨ r.full_text = cannedToolLimitText) := by
  intro gas
  induction gas with
  | zero =>
    intro callIdx st _
    exact ⟨_, _, callIdx, rfl,
      Or.inl (full_text_singleTC env.tokenizer cannedDepthLimitText st.nextUid now [] none
        [("created_at", .time now)])⟩
  | succ g ih =>
    intro callIdx st hsome
    have hroot : st.toolCounter.isNone = false := by
      cases h : st.toolCounter <;> simp_all
    show ∃ r st2 idx, runCompletionStep env now (runCompletionAux env now g) callIdx st
      = (.ok r, st2, idx) ∧ _
    by_cases h20 : MAX_TOOL_CALLS_PER_COMPLETION ≤ st.totalToolCalls
    · unfold runCompletionStep
      simp only [hroot, Bool.false_eq_true, if_false, ite_false]
      rw [if_pos h20]
      exact ⟨_, _, callIdx, rfl, Or.inr (full_text_singleTC env.tokenizer cannedToolLimitText
        st.nextUid now [] none [("created_at", .time now)])⟩
    · cases henv : env.stream callIdx with
      | error e =>
        have := hok callIdx
        rw [henv] at this
        exact absurd this
          (by rw [show (Except.error e : Except String ModelResponse).isOk = false from rfl];
              simp)
      | ok resp =>
        have hne := htc callIdx resp henv
        have hne' : ¬ resp.tool_calls.isEmpty = true := by simp [hne]
        unfold runCompletionStep
        simp only [hroot, Bool.false_eq_true, if_false, ite_false]
        rw [if_neg h20, henv]
        dsimp only
        rw [if_pos hne']
        have key : ∀ (stX : SessionSt), stX.toolCounter.isSome = true →
            ∃ r st2 idx, ((runCompletionAux env now g (callIdx + 1) stX).1,
              finallyResetCounter false (runCompletionAux env now g (callIdx + 1) stX).2.1,
              (runCompletionAux env now g (callIdx + 1) stX).2.2) = (.ok r, st2, idx) ∧
              (r.full_text = cannedDepthLimitText ∨ r.full_text = cannedToolLimitText) := by
          intro stX hX
          obtain ⟨r, st2, idx2, heq, hor⟩ := ih (callIdx + 1) stX hX
          rw [heq]
          exact ⟨r, _, idx2, rfl, hor⟩
        exact key _ (executeTools_isSome env.tokenizer env.registry now resp.tool_calls _ hsome)

/-- C6 (amended): the loop never recurses past depth `MAX_RECURSION_DEPTH` — a
call entered at the ceiling immediately returns a canned apologetic record and
makes no model call; a completion step whose cumulative tool-call count has
already reached `MAX_TOOL_CALLS_PER_COMPLETION` likewise returns a canned
record without calling the model (so a model call is only issued while the
count is below the ceiling — though one response's own calls are all processed
and may push the count past it); and with responses that always request tool
calls the loop still terminates with one of the two canned texts. -/
theorem completion_loop_caps :
    (∀ (env : CompletionEnv) (now : Int) (callIdx : Nat) (st : SessionSt) (depth : Nat),
      MAX_RECURSION_DEPTH ≤ depth →
      ∃ r st2, runCompletionUnsafe env now depth callIdx st = (.ok r, st2, callIdx) ∧
        r.full_text = cannedDepthLimitText ∧
        st2.context.messages = st.context.messages ++ [r]) ∧
    (∀ (env : CompletionEnv) (now : Int) (callIdx : Nat) (st : SessionSt) (depth : Nat)
      (c : List (String × Nat)),
      depth < MAX_RECURSION_DEPTH →
      st.toolCounter = some c →
      MAX_TOOL_CALLS_PER_COMPLETION ≤ st.totalToolCalls →
      ∃ r st2, runCompletionUnsafe env now depth callIdx st = (.ok r, st2, callIdx) ∧
        r.full_text = cannedToolLimitText ∧
        st2.context.messages = st.context.messages ++ [r]) ∧
    (∀ (env : CompletionEnv) (now : Int) (st : SessionSt),
      st.toolCounter = none →
      (∀ n, (env.stream n).isOk = true) →
      (∀ n r, env.stream n = .ok r → r.tool_calls.isEmpty = false) →
      ∃ r st2 idx, runCompletionUnsafe env now 0 0 st = (.ok r, st2, idx) ∧
        (r.full_text = cannedDepthLimitText ∨ r.full_text = cannedToolLimitText)) := by
  refine ⟨?_, ?_, ?_⟩
  · intro env now callIdx st depth hdepth
    unfold runCompletionUnsafe
    rw [Nat.sub_eq_zero_of_le hdepth]
    exact ⟨_, _, rfl,
      full_text_singleTC env.tokenizer cannedDepthLimitText st.nextUid now [] none
        [("created_at", .time now)], rfl⟩
  · intro env now callIdx st depth c hdepth hc h20
    have hroot : st.toolCounter.isNone = false := by rw [hc]; rfl
    obtain ⟨g, hg⟩ : ∃ g, MAX_RECURSION_DEPTH - depth = g + 1 :=
      ⟨MAX_RECURSION_DEPTH - depth - 1, by
        unfold MAX_RECURSION_DEPTH at hdepth ⊢; omega⟩
    unfold runCompletionUnsafe
    rw [hg]
    show ∃ r st2, runCompletionStep env now (runCompletionAux env now g) callIdx st
      = (.ok r, st2, callIdx) ∧ _
    unfold runCompletionStep
    simp only [hroot, Bool.false_eq_true, if_false, ite_false]
    rw [if_pos h20]
    exact ⟨_, _, rfl,
      full_text_singleTC env.tokenizer cannedToolLimitText st.nextUid now [] none
        [("created_at", .time now)], rfl⟩
  · intro env now st hnone hok htc
    have hroot : st.toolCounter.isNone = true := by rw [hnone]; rfl
    show ∃ r st2 idx, runCompletionStep env now (runCompletionAux env now 9) 0 st
      = (.ok r, st2, idx) ∧ _
    unfold runCompletionStep
    simp only [hroot, if_true, ite_true]
    rw [if_neg (by unfold MAX_TOOL_CALLS_PER_COMPLETION; omega)]
    cases henv : env.stream 0 with
    | error e =>
      have := hok 0
      rw [henv] at this
      exact absurd this
        (by rw [show (Except.error e : Except String ModelResponse).isOk = false from rfl];
            simp)
    | ok resp =>
      have hne := htc 0 resp henv
      have hne' : ¬ resp.tool_calls.isEmpty = true := by simp [hne]
      dsimp only
      rw [if_pos hne']
      have key : ∀ (stX : SessionSt), stX.toolCounter.isSome = true →
          ∃ r st2 idx, ((runCompletionAux env now 9 1 stX).1,
            finallyResetCounter true (runCompletionAux env now 9 1 stX).2.1,
            (runCompletionAux env now 9 1 stX).2.2) = (.ok r, st2, idx) ∧
            (r.full_text = cannedDepthLimitText ∨ r.full_text = cannedToolLimitText) := by
        intro stX hX
        obtain ⟨r, st2, idx2, heq, hor⟩ :=
          runCompletionAux_ceiling env now hok htc 9 1 stX hX
        rw [heq]
        exact ⟨r, _, idx2, rfl, hor⟩
      exact key _ (executeTools_isSome env.tokenizer env.registry now resp.tool_calls _ rfl)

/-- C6 counterexample: the 21 tool calls of a single response are all
processed — 21 tool response records are appended and the cumulative counter
reaches 21 — before the ceiling fires on the next step (which then returns the
canned text), so one top-level completion processes more than
`MAX_TOOL_CALLS_PER_COMPLETION` cumulative tool calls. -/
theorem completion_tool_count_counterexample :
    ((runCompletionUnsafe c6env 0 0 0 c6st).2.1.context.messages.filter
        (fun m => m.role == "tool")).length = 21 ∧
    (runCompletionUnsafe c6env 0 0 0 c6st).2.1.totalToolCalls = 21 ∧
    MAX_TOOL_CALLS_PER_COMPLETION < 21 ∧
    Except.map MessageRecord.full_text (runCompletionUnsafe c6env 0 0 0 c6st).1 =
      .ok cannedToolLimitText := by
  refine ⟨?_, ?_, by decide, ?_⟩ <;> rfl

/-- Witness for C6 at concrete inputs: the depth ceiling, the entry gate at 20
cumulative tool calls, and the fail-soft termination of an endless tool-call
chain. -/
theorem completion_loop_caps_witness :
    (MAX_RECURSION_DEPTH ≤ 10 ∧
      ∃ r st2, runCompletionUnsafe c6wEnv 0 10 0 c6st = (.ok r, st2, 0) ∧
        r.full_text = cannedDepthLimitText ∧
        st2.context.messages = c6st.context.messages ++ [r]) ∧
    (3 < MAX_RECURSION_DEPTH ∧ c6wStGate.toolCounter = some [] ∧
      MAX_TOOL_CALLS_PER_COMPLETION ≤ c6wStGate.totalToolCalls ∧
      ∃ r st2, runCompletionUnsafe c6wEnv 0 3 0 c6wStGate = (.ok r, st2, 0) ∧
        r.full_text = cannedToolLimitText ∧
        st2.context.messages = c6wStGate.context.messages ++ [r]) ∧
    (c6st.toolCounter = none ∧
      ∃ r st2 idx, runCompletionUnsafe c6wEnv 0 0 0 c6st = (.ok r, st2, idx) ∧
        (r.full_text = cannedDepthLimitText ∨ r.full_text = cannedToolLimitText)) :=
  ⟨⟨by decide, completion_loop_caps.1 c6wEnv 0 0 c6st 10 (by decide)⟩,
   ⟨by decide, rfl, by decide,
    completion_loop_caps.2.1 c6wEnv 0 0 c6wStGate 3 [] (by decide) rfl (by decide)⟩,
   ⟨rfl,
    completion_loop_caps.2.2 c6wEnv 0 c6st rfl (fun _ => rfl)
      (fun n r h => by
        have h2 := Except.ok.inj (h : Except.ok c6wResp = Except.ok r)
        rw [← h2]
        rfl)⟩⟩

/-! ## The token-budget pass: characterisation lemmas. -/

/-- `sumTokens` of a cons. -/
theorem sumTokens_cons (m : MessageRecord) (l : List MessageRecord) :
    sumTokens (m :: l) = m.token_count + sumTokens l := by
  simp [sumTokens]

/-- `sumTokens` of an append. -/
theorem sumTokens_append (l₁ l₂ : List MessageRecord) :
    sumTokens (l₁ ++ l₂) = sumTokens l₁ + sumTokens l₂ := by
  simp [sumTokens]

/-- The sum of a sublist of naturals is at most the sum of the list. -/
theorem sum_le_of_sublist {l₁ l₂ : List Nat} (h : l₁.Sublist l₂) : l₁.sum ≤ l₂.sum := by
  induction h with
  | slnil => exact le_refl 0
  | cons a _ ih => simpa using le_trans ih (by simp)
  | cons₂ a _ ih => simpa using ih

/-- `sumTokens` is monotone along sublists. -/
theorem sumTokens_le_of_sublist {l₁ l₂ : List MessageRecord} (h : l₁.Sublist l₂) :
    sumTokens l₁ ≤ sumTokens l₂ :=
  sum_le_of_sublist (h.map MessageRecord.token_count)

/-- Step lemma: the first-record branch of the budget fold. -/
theorem tokenBudgetFold_first (W : Int) (m : MessageRecord) (total : Int)
    (h : W ≤ 0 ∨ W ≤ (m.token_count : Int)) :
    tokenBudgetFold W ([], total) m =
      ([m], if 0 < W then min (m.token_count : Int) W else (m.token_count : Int)) := by
  unfold tokenBudgetFold
  rw [if_pos ⟨rfl, h⟩]

/-- Step lemma: the keep branch of the budget fold. -/
theorem tokenBudgetFold_keep (W : Int) (m : MessageRecord) (valid : List MessageRecord)
    (total : Int)
    (h1 : ¬ (valid.isEmpty = true ∧ (W ≤ 0 ∨ W ≤ (m.token_count : Int))))
    (h2 : W ≤ 0 ∨ total + (m.token_count : Int) ≤ W) :
    tokenBudgetFold W (valid, total) m = (m :: valid, total + (m.token_count : Int)) := by
  unfold tokenBudgetFold
  rw [if_neg h1, if_pos h2]

/-- Step lemma: the skip branch of the budget fold. -/
theorem tokenBudgetFold_skip (W : Int) (m : MessageRecord) (valid : List MessageRecord)
    (total : Int)
    (h1 : ¬ (valid.isEmpty = true ∧ (W ≤ 0 ∨ W ≤ (m.token_count : Int))))
    (h2 : ¬ (W ≤ 0 ∨ total + (m.token_count : Int) ≤ W)) :
    tokenBudgetFold W (valid, total) m = (valid, total) := by
  unfold tokenBudgetFold
  rw [if_neg h1, if_neg h2]

/-- With no positive window the budget fold keeps every record. -/
theorem budgetFold_unlimited (W : Int) (hW : W ≤ 0) :
    ∀ (l : List MessageRecord) (valid : List MessageRecord) (total : Int),
      (l.foldl (tokenBudgetFold W) (valid, total)).1 = l.reverse ++ valid := by
  intro l
  induction l with
  | nil => intro valid total; simp
  | cons m rest ih =>
    intro valid total
    rw [List.foldl_cons]
    by_cases hv : valid.isEmpty = true
    · have hv0 : valid = [] := by
        cases valid with
        | nil => rfl
        | cons a l => exact absurd hv (by simp)
      subst hv0
      rw [tokenBudgetFold_first W m total (Or.inl hW), ih]
      simp
    · rw [tokenBudgetFold_keep W m valid total (by simp [hv]) (Or.inl hW), ih]
      simp

/-- Once the newest record alone has filled the window (running total `W`),
the fold keeps exactly the zero-token records among the rest. -/
theorem budgetFold_heavy (W : Int) (hW : 0 < W) :
    ∀ (l : List MessageRecord) (valid : List MessageRecord), valid ≠ [] →
      l.foldl (tokenBudgetFold W) (valid, W) =
        ((l.filter fun m => m.token_count == 0).reverse ++ valid, W) := by
  intro l
  induction l with
  | nil => intro valid _; simp
  | cons m rest ih =>
    intro valid hvalid
    have hie : valid.isEmpty = false := by
      cases valid with
      | nil => exact absurd rfl hvalid
      | cons a l => rfl
    rw [List.foldl_cons]
    by_cases hz : m.token_count = 0
    · rw [tokenBudgetFold_keep W m valid W (by simp [hie]) (Or.inr (by simp [hz]))]
      rw [show (W + (m.token_count : Int)) = W by simp [hz]]
      rw [ih (m :: valid) (by simp)]
      simp [List.filter_cons, hz]
    · rw [tokenBudgetFold_skip W m valid W (by simp [hie]) (by
        push_neg
        refine ⟨by omega, ?_⟩
        have : (0 : Int) < (m.token_count : Int) := by exact_mod_cast Nat.pos_of_ne_zero hz
        omega)]
      rw [ih valid hvalid]
      simp [List.filter_cons, hz]

/-- While the running total plus the remaining token sum stays within the
window, the fold keeps everything and accumulates the sums. -/
theorem budgetFold_light (W : Int) (_hW : 0 < W) :
    ∀ (l : List MessageRecord) (valid : List MessageRecord) (total : Int), valid ≠ [] →
      total + (sumTokens l : Int) ≤ W →
      l.foldl (tokenBudgetFold W) (valid, total) =
        (l.reverse ++ valid, total + (sumTokens l : Int)) := by
  intro l
  induction l with
  | nil => intro valid total _ _; simp [sumTokens]
  | cons m rest ih =>
    intro valid total hvalid hsum
    have hie : valid.isEmpty = false := by
      cases valid with
      | nil => exact absurd rfl hvalid
      | cons a l => rfl
    rw [sumTokens_cons] at hsum
    push_cast at hsum
    have h0 : (0 : Int) ≤ (sumTokens rest : Int) := by positivity
    rw [List.foldl_cons]
    rw [tokenBudgetFold_keep W m valid total (by simp [hie]) (Or.inr (by omega))]
    rw [ih (m :: valid) (total + (m.token_count : Int)) (by simp) (by omega)]
    rw [sumTokens_cons]
    push_cast
    simp [List.append_assoc, add_assoc]

/-- The first-fit invariant of the budget fold: the running total is the token
sum of the kept records and stays within the window. -/
theorem budgetFold_inv (W : Int) (hW : 0 < W) :
    ∀ (l : List MessageRecord) (valid : List MessageRecord) (total : Int), valid ≠ [] →
      (sumTokens valid : Int) = total → total ≤ W →
      (sumTokens (l.foldl (tokenBudgetFold W) (valid, total)).1 : Int)
          = (l.foldl (tokenBudgetFold W) (valid, total)).2 ∧
        (l.foldl (tokenBudgetFold W) (valid, total)).2 ≤ W ∧
        (l.foldl (tokenBudgetFold W) (valid, total)).1 ≠ [] := by
  intro l
  induction l with
  | nil => intro valid total hvalid hsum hle; exact ⟨hsum, hle, hvalid⟩
  | cons m rest ih =>
    intro valid total hvalid hsum hle
    have hie : valid.isEmpty = false := by
      cases valid with
      | nil => exact absurd rfl hvalid
      | cons a l => rfl
    rw [List.foldl_cons]
    by_cases hfit : W ≤ 0 ∨ total + (m.token_count : Int) ≤ W
    · rw [tokenBudgetFold_keep W m valid total (by simp [hie]) hfit]
      refine ih (m :: valid) (total + (m.token_count : Int)) (by simp) ?_ ?_
      · rw [sumTokens_cons]
        push_cast
        omega
      · rcases hfit with h | h
        · omega
        · exact h
    · rw [tokenBudgetFold_skip W m valid total (by simp [hie]) hfit]
      exact ih valid total hvalid hsum hle

/-- The budget fold only keeps processed or previously kept records, in
order. -/
theorem budgetFold_sublist (W : Int) :
    ∀ (l : List MessageRecord) (valid : List MessageRecord) (total : Int),
      ∃ s : List MessageRecord, s.Sublist l ∧
        (l.foldl (tokenBudgetFold W) (valid, total)).1 = s.reverse ++ valid := by
  intro l
  induction l with
  | nil => intro valid total; exact ⟨[], List.Sublist.refl _, by simp⟩
  | cons m rest ih =>
    intro valid total
    rw [List.foldl_cons]
    by_cases h1 : (valid.isEmpty = true) ∧ (W ≤ 0 ∨ W ≤ (m.token_count : Int))
    · have hv : valid = [] := by
        cases valid with
        | nil => rfl
        | cons a l => exact absurd h1.1 (by simp)
      subst hv
      rw [tokenBudgetFold_first W m total h1.2]
      obtain ⟨s, hs, heq⟩ := ih [m] (if 0 < W then min (m.token_count : Int) W
        else (m.token_count : Int))
      exact ⟨m :: s, hs.cons₂ m, by rw [heq]; simp⟩
    · rw [show tokenBudgetFold W (valid, total) m =
        if W ≤ 0 ∨ total + (m.token_count : Int) ≤ W
          then (m :: valid, total + (m.token_count : Int)) else (valid, total) from by
        unfold tokenBudgetFold
        rw [if_neg h1]]
      by_cases h2 : W ≤ 0 ∨ total + (m.token_count : Int) ≤ W
      · rw [if_pos h2]
        obtain ⟨s, hs, heq⟩ := ih (m :: valid) (total + (m.token_count : Int))
        exact ⟨m :: s, hs.cons₂ m, by rw [heq]; simp⟩
      · rw [if_neg h2]
        obtain ⟨s, hs, heq⟩ := ih valid total
        exact ⟨s, hs.cons m, heq⟩

/-! ## The cleanup passes only remove records. -/

/-- The first cleanup pass emits a sublist of its input. -/
theorem cleanupPass1_sublist :
    ∀ (msgs : List MessageRecord) (amap : List (MessageRecord × List String))
      (resolved : List String),
      (cleanupPass1 msgs amap resolved).1.Sublist msgs := by
  intro msgs
  induction msgs with
  | nil => intro amap resolved; simp [cleanupPass1]
  | cons m rest ih =>
    intro amap resolved
    unfold cleanupPass1
    split
    · exact (ih _ _).cons₂ m
    · split
      · split
        · exact (ih _ _).cons₂ m
        · exact (ih _ _).cons m
      · exact (ih _ _).cons₂ m

/-- The second cleanup pass emits a sublist of its input. -/
theorem cleanupPass2_sublist (amap : List (MessageRecord × List String))
    (resolved : List String) :
    ∀ (msgs : List MessageRecord) (skip : List String),
      (cleanupPass2 amap resolved msgs skip).Sublist msgs := by
  intro msgs
  induction msgs with
  | nil => intro skip; simp [cleanupPass2]
  | cons m rest ih =>
    intro skip
    unfold cleanupPass2
    split
    · split
      · split
        · split
          · exact (ih _).cons₂ m
          · exact (ih _).cons m
        · exact (ih _).cons₂ m
      · exact (ih _).cons₂ m
    · split
      · split
        · exact (ih _).cons m
        · exact (ih _).cons₂ m
      · exact (ih _).cons₂ m

/-- The tool-call-pairing cleanup emits a sublist of its input. -/
theorem cleanupToolPairs_sublist (msgs : List MessageRecord) :
    (cleanupToolPairs msgs).Sublist msgs := by
  unfold cleanupToolPairs
  dsimp only
  split
  · exact cleanupPass1_sublist msgs [] []
  · exact (cleanupPass2_sublist _ _ _ _).trans (cleanupPass1_sublist msgs [] [])

/-- The budget pass emits a sublist of its input. -/
theorem tokenBudget_sublist (W : Int) (msgs : List MessageRecord) :
    (tokenBudget W msgs).Sublist msgs := by
  obtain ⟨s, hs, heq⟩ := budgetFold_sublist W msgs.reverse [] 0
  unfold tokenBudget
  rw [heq, List.append_nil]
  have := hs.reverse
  rwa [List.reverse_reverse] at this

/-! ## Claim C2: what trimming removes. -/

/-- C2 (amended): `trim` only ever removes records — the surviving records are
a sublist (order-preserving selection) of the pre-trim record list.  The
budget pass however is first-fit, not stop-at-first-overflow: it skips a
record that would exceed the remaining budget but keeps scanning, so an older
record can survive while a newer one is dropped and the survivors need not be
a contiguous suffix. -/
theorem trim_sublist (ctx : ConversationContext) (now : Int) :
    (ctx.trim now).messages.Sublist ctx.messages := by
  have h : (ctx.trim now).messages =
      cleanupToolPairs (tokenBudget ctx.context_window
        (ageFilter now ctx.context_age ctx.messages)) := rfl
  rw [h]
  exact (cleanupToolPairs_sublist _).trans
    ((tokenBudget_sublist _ _).trans (List.filter_sublist _))

/-- C2 counterexample: with window 10 over token costs 1, 100, 5 (oldest to
newest), trim keeps the newest (uid 3) and the oldest (uid 1) while dropping
the newer record uid 2 in between — the survivors are not a contiguous suffix
and an older record is kept while a newer one is dropped. -/
theorem trim_contiguity_counterexample :
    ((c2ctx.trim 0).messages.map MessageRecord.uid = [1, 3]) ∧
    ¬ ((c2ctx.trim 0).messages.map MessageRecord.uid).IsSuffix
        (c2ctx.messages.map MessageRecord.uid) := by
  refine ⟨rfl, ?_⟩
  decide

/-! ## Claim C1: the token budget after trim. -/

/-- A list of zero-token records sums to zero. -/
theorem sumTokens_eq_zero {l : List MessageRecord}
    (h : ∀ m ∈ l, m.token_count = 0) : sumTokens l = 0 := by
  induction l with
  | nil => rfl
  | cons m rest ih =>
    rw [sumTokens_cons, h m (by simp), ih fun x hx => h x (by simp [hx])]

/-- C1 (amended): with a positive window, after `trim()` the total token count
is within the window — unless the single newest age-surviving record alone
exceeds the window, in which case that record is kept by the budget pass, the
total is at most that record's own token count, and any other surviving record
is a zero-token record (the newest record need not be the only survivor). -/
theorem trim_token_budget (now : Int) (ctx : ConversationContext)
    (hW : 0 < ctx.context_window) :
    (sumTokens (ctx.trim now).messages : Int) ≤ ctx.context_window ∨
    ∃ n : MessageRecord, ∃ rest : List MessageRecord,
      (ageFilter now ctx.context_age ctx.messages).reverse = n :: rest ∧
      ctx.context_window < (n.token_count : Int) ∧
      (sumTokens (ctx.trim now).messages : Int) ≤ (n.token_count : Int) ∧
      ∀ m ∈ (ctx.trim now).messages, m = n ∨ m.token_count = 0 := by
  set W := ctx.context_window with hWdef
  set A := ageFilter now ctx.context_age ctx.messages with hA
  have hT : (ctx.trim now).messages = cleanupToolPairs (tokenBudget W A) := rfl
  have hTB : (ctx.trim now).messages.Sublist (tokenBudget W A) := by
    rw [hT]; exact cleanupToolPairs_sublist _
  cases hrev : A.reverse with
  | nil =>
    left
    have hB : tokenBudget W A = [] := by
      unfold tokenBudget
      rw [hrev]
      rfl
    have h0 : sumTokens (ctx.trim now).messages = 0 := by
      have := sumTokens_le_of_sublist hTB
      rw [hB] at this
      simpa [sumTokens] using this
    rw [h0]
    exact_mod_cast le_of_lt hW
  | cons n rest =>
    by_cases hn : W ≤ (n.token_count : Int)
    · -- newest meets or exceeds the window
      have hB : tokenBudget W A = (rest.filter fun m => m.token_count == 0).reverse ++ [n] := by
        unfold tokenBudget
        rw [hrev, List.foldl_cons, tokenBudgetFold_first W n 0 (Or.inr hn),
          if_pos hW, min_eq_right hn, budgetFold_heavy W hW rest [n] (by simp)]
    -- members of the budget output are the newest or zero-token records
      have hmem : ∀ m ∈ tokenBudget W A, m = n ∨ m.token_count = 0 := by
        intro m hm
        rw [hB] at hm
        rcases List.mem_append.mp hm with hm | hm
        · right
          have := List.mem_filter.mp (List.mem_reverse.mp hm)
          simpa using this.2
        · left
          simpa using hm
      have hsumB : sumTokens (tokenBudget W A) = n.token_count := by
        rw [hB, sumTokens_append]
        have hz : sumTokens (rest.filter fun m => m.token_count == 0).reverse = 0 :=
          sumTokens_eq_zero fun m hm => by
            have := List.mem_filter.mp (List.mem_reverse.mp hm)
            simpa using this.2
        rw [hz]
        simp [sumTokens]
      have hsumT : (sumTokens (ctx.trim now).messages : Int) ≤ (n.token_count : Int) := by
        have := sumTokens_le_of_sublist hTB
        rw [hsumB] at this
        exact_mod_cast this
      rcases eq_or_lt_of_le hn with heq | hlt
      · left
        rw [← heq] at hsumT
        exact hsumT
      · right
        exact ⟨n, rest, rfl, hlt, hsumT, fun m hm => hmem m (hTB.mem hm)⟩
    · -- the newest fits: first-fit keeps the total within the window
      left
      push_neg at hn
      have hstep : tokenBudgetFold W ([], 0) n = ([n], 0 + (n.token_count : Int)) :=
        tokenBudgetFold_keep W n [] 0 (by
          intro h
          rcases h.2 with h2 | h2
          · omega
          · omega) (Or.inr (by omega))
      have hinv := budgetFold_inv W hW rest [n] (0 + (n.token_count : Int)) (by simp)
        (by simp [sumTokens]) (by omega)
      have hsum : (sumTokens (tokenBudget W A) : Int) ≤ W := by
        unfold tokenBudget
        rw [hrev, List.foldl_cons, hstep]
        rw [hinv.1]
        exact hinv.2.1
      calc (sumTokens (ctx.trim now).messages : Int)
          ≤ (sumTokens (tokenBudget W A) : Int) := by
            exact_mod_cast sumTokens_le_of_sublist hTB
        _ ≤ W := hsum

/-- C1 counterexample: the newest record (two tokens) exceeds the window of 1,
yet the zero-token older record also survives the trim, so the newest record
is not the only record remaining and the total exceeds the window. -/
theorem trim_budget_counterexample :
    ((c1ctx.trim 0).messages.map MessageRecord.uid = [10, 11]) ∧
    (c1ctx.context_window < (c1big.token_count : Int)) ∧
    ¬ ((sumTokens (c1ctx.trim 0).messages : Int) ≤ c1ctx.context_window ∨
       (c1ctx.trim 0).messages.map MessageRecord.uid = [c1big.uid]) := by
  exact ⟨rfl, by decide, by decide⟩

/-- Witness for C1 at the concrete context: the window is positive and the
amended budget disjunction holds there. -/
theorem trim_token_budget_witness :
    (0 : Int) < c1ctx.context_window ∧
    ((sumTokens (c1ctx.trim 0).messages : Int) ≤ c1ctx.context_window ∨
    ∃ n : MessageRecord, ∃ rest : List MessageRecord,
      (ageFilter 0 c1ctx.context_age c1ctx.messages).reverse = n :: rest ∧
      c1ctx.context_window < (n.token_count : Int) ∧
      (sumTokens (c1ctx.trim 0).messages : Int) ≤ (n.token_count : Int) ∧
      ∀ m ∈ (c1ctx.trim 0).messages, m = n ∨ m.token_count = 0) :=
  ⟨by decide, trim_token_budget 0 c1ctx (by decide)⟩

/-! ## Claim C3: the tool-call pairing cleanup.  Characterisation of pass 1. -/

/-- Unfolding of the assistant test. -/
theorem isAssistantRec_eq_true {m : MessageRecord} :
    isAssistantRec m = true ↔
      m.role = "assistant" ∧ ∃ tcs fr, m.kind = .assistant tcs fr := by
  cases hk : m.kind <;>
    simp [isAssistantRec, hk, Bool.and_eq_true, beq_iff_eq]

/-- Unfolding of the tool-response test. -/
theorem isToolRespRec_eq_true {m : MessageRecord} :
    isToolRespRec m = true ↔
      m.role = "tool" ∧ ∃ tid dat, m.kind = .toolResponse tid dat := by
  cases hk : m.kind <;>
    simp [isToolRespRec, hk, Bool.and_eq_true, beq_iff_eq]

/-- A record cannot pass both the assistant and the tool-response test. -/
theorem not_asst_and_tool {m : MessageRecord}
    (h1 : isAssistantRec m = true) (h2 : isToolRespRec m = true) : False := by
  have hr1 := (isAssistantRec_eq_true.mp h1).1
  have hr2 := (isToolRespRec_eq_true.mp h2).1
  rw [hr1] at hr2
  exact absurd hr2 (by decide)

/-- Membership in a string list via `contains`. -/
theorem string_contains_iff {l : List String} {a : String} :
    l.contains a = true ↔ a ∈ l := by
  simp [List.contains, List.elem_iff]

/-- The assistant map of pass 1 only grows. -/
theorem cleanupPass1_amap_mono :
    ∀ (msgs : List MessageRecord) (amap : List (MessageRecord × List String))
      (resolved : List String),
      ∃ d, (cleanupPass1 msgs amap resolved).2.1 = amap ++ d := by
  intro msgs
  induction msgs with
  | nil => intro amap resolved; exact ⟨[], by simp [cleanupPass1]⟩
  | cons m rest ih =>
    intro amap resolved
    unfold cleanupPass1
    split
    · dsimp only
      split
      · exact ih amap resolved
      · obtain ⟨d, hd⟩ := ih (amap ++ [(m, asstCallIds m)]) resolved
        exact ⟨(m, asstCallIds m) :: d, by rw [hd]; simp⟩
    · split
      · split
        · exact ih amap (resolved ++ [toolRespId m])
        · exact ih amap resolved
      · exact ih amap resolved

/-- The resolved-id list of pass 1 only grows. -/
theorem cleanupPass1_res_mono :
    ∀ (msgs : List MessageRecord) (amap : List (MessageRecord × List String))
      (resolved : List String),
      ∃ d, (cleanupPass1 msgs amap resolved).2.2 = resolved ++ d := by
  intro msgs
  induction msgs with
  | nil => intro amap resolved; exact ⟨[], by simp [cleanupPass1]⟩
  | cons m rest ih =>
    intro amap resolved
    unfold cleanupPass1
    split
    · dsimp only
      split
      · exact ih amap resolved
      · exact ih (amap ++ [(m, asstCallIds m)]) resolved
    · split
      · split
        · obtain ⟨d, hd⟩ := ih amap (resolved ++ [toolRespId m])
          exact ⟨toolRespId m :: d, by rw [hd]; simp⟩
        · exact ih amap resolved
      · exact ih amap resolved

/-- Every entry of the final assistant map is an initial entry or a kept
assistant with its non-empty tool-call id list. -/
theorem cleanupPass1_amap_mem :
    ∀ (msgs : List MessageRecord) (amap : List (MessageRecord × List String))
      (resolved : List String) (p : MessageRecord × List String),
      p ∈ (cleanupPass1 msgs amap resolved).2.1 →
      p ∈ amap ∨
        (p.1 ∈ (cleanupPass1 msgs amap resolved).1 ∧ isAssistantRec p.1 = true ∧
          p.2 = asstCallIds p.1 ∧ p.2 ≠ []) := by
  intro msgs
  induction msgs with
  | nil => intro amap resolved p hp; left; simpa [cleanupPass1] using hp
  | cons m rest ih =>
    intro amap resolved p hp
    revert hp
    unfold cleanupPass1
    split
    next hasst =>
      dsimp only
      split
      next => -- empty id list: map unchanged
        intro hp
        rcases ih amap resolved p hp with h | ⟨h1, h2, h3, h4⟩
        · exact Or.inl h
        · exact Or.inr ⟨by simp [h1], h2, h3, h4⟩
      next hne =>
        intro hp
        rcases ih (amap ++ [(m, asstCallIds m)]) resolved p hp with h | ⟨h1, h2, h3, h4⟩
        · rcases List.mem_append.mp h with h | h
          · exact Or.inl h
          · have hpm : p = (m, asstCallIds m) := by simpa using h
            subst hpm
            exact Or.inr ⟨by simp, hasst, rfl, by simpa using hne⟩
        · exact Or.inr ⟨by simp [h1], h2, h3, h4⟩
    next =>
      split
      · split
        · intro hp
          rcases ih amap (resolved ++ [toolRespId m]) p hp with h | ⟨h1, h2, h3, h4⟩
          · exact Or.inl h
          · exact Or.inr ⟨by simp [h1], h2, h3, h4⟩
        · intro hp
          rcases ih amap resolved p hp with h | ⟨h1, h2, h3, h4⟩
          · exact Or.inl h
          · exact Or.inr ⟨h1, h2, h3, h4⟩
      · intro hp
        rcases ih amap resolved p hp with h | ⟨h1, h2, h3, h4⟩
        · exact Or.inl h
        · exact Or.inr ⟨by simp [h1], h2, h3, h4⟩

/-- Every kept assistant with a non-empty tool-call id list has its entry in
the final assistant map. -/
theorem cleanupPass1_amap_complete :
    ∀ (msgs : List MessageRecord) (amap : List (MessageRecord × List String))
      (resolved : List String) (m : MessageRecord),
      m ∈ (cleanupPass1 msgs amap resolved).1 → isAssistantRec m = true →
      asstCallIds m ≠ [] →
      (m, asstCallIds m) ∈ (cleanupPass1 msgs amap resolved).2.1 := by
  intro msgs
  induction msgs with
  | nil => intro amap resolved m hm; simp [cleanupPass1] at hm
  | cons x rest ih =>
    intro amap resolved m hm hasst hne
    revert hm
    unfold cleanupPass1
    split
    next hx =>
      dsimp only
      split
      next hemp =>
        intro hm
        rcases List.mem_cons.mp hm with h | h
        · subst h
          exact absurd (by simpa using hemp) hne
        · exact ih amap resolved m h hasst hne
      next =>
        intro hm
        rcases List.mem_cons.mp hm with h | h
        · subst h
          obtain ⟨d, hd⟩ := cleanupPass1_amap_mono rest (amap ++ [(m, asstCallIds m)]) resolved
          rw [hd]
          exact List.mem_append.mpr (Or.inl (by simp))
        · exact ih (amap ++ [(x, asstCallIds x)]) resolved m h hasst hne
    next hx =>
      split
      · split
        · intro hm
          rcases List.mem_cons.mp hm with h | h
          · subst h
            exact absurd hasst (by simp [hx])
          · exact ih amap (resolved ++ [toolRespId x]) m h hasst hne
        · intro hm
          exact ih amap resolved m hm hasst hne
      · intro hm
        rcases List.mem_cons.mp hm with h | h
        · subst h
          exact absurd hasst (by simp [hx])
        · exact ih amap resolved m h hasst hne

/-- Every tool response kept by pass 1 is covered by an initial map entry or
by a kept assistant occurring earlier in the output. -/
theorem cleanupPass1_tool_covered :
    ∀ (msgs : List MessageRecord) (amap : List (MessageRecord × List String))
      (resolved : List String) (l₁ l₂ : List MessageRecord) (t : MessageRecord),
      (cleanupPass1 msgs amap resolved).1 = l₁ ++ t :: l₂ → isToolRespRec t = true →
      (∃ p ∈ amap, toolRespId t ∈ p.2) ∨
        (∃ A ∈ l₁, isAssistantRec A = true ∧ toolRespId t ∈ asstCallIds A) := by
  intro msgs
  induction msgs with
  | nil =>
    intro amap resolved l₁ l₂ t heq _
    rw [show (cleanupPass1 [] amap resolved).1 = [] from rfl] at heq
    cases l₁ <;> simp at heq
  | cons x rest ih =>
    intro amap resolved l₁ l₂ t heq htool
    revert heq
    unfold cleanupPass1
    split
    next hx =>
      dsimp only
      split
      next =>
        intro heq
        cases l₁ with
        | nil =>
          simp only [List.nil_append] at heq
          have hxt : x = t := (List.cons.injEq _ _ _ _ ▸ heq).1
          exact absurd htool (by rw [← hxt]; intro h; exact not_asst_and_tool hx h)
        | cons a l₁' =>
          simp only [List.cons_append, List.cons.injEq] at heq
          rcases ih amap resolved l₁' l₂ t heq.2 htool with h | ⟨A, hA, h1, h2⟩
          · exact Or.inl h
          · exact Or.inr ⟨A, by simp [hA], h1, h2⟩
      next =>
        intro heq
        cases l₁ with
        | nil =>
          simp only [List.nil_append] at heq
          have hxt : x = t := (List.cons.injEq _ _ _ _ ▸ heq).1
          exact absurd htool (by rw [← hxt]; intro h; exact not_asst_and_tool hx h)
        | cons a l₁' =>
          simp only [List.cons_append, List.cons.injEq] at heq
          rcases ih (amap ++ [(x, asstCallIds x)]) resolved l₁' l₂ t heq.2 htool
            with ⟨p, hp, hpid⟩ | ⟨A, hA, h1, h2⟩
          · rcases List.mem_append.mp hp with h | h
            · exact Or.inl ⟨p, h, hpid⟩
            · have hpx : p = (x, asstCallIds x) := by simpa using h
              subst hpx
              exact Or.inr ⟨x, by rw [← heq.1]; simp, hx, hpid⟩
          · exact Or.inr ⟨A, by simp [hA], h1, h2⟩
    next hx =>
      split
      next htoolx =>
        split
        next hany =>
          intro heq
          cases l₁ with
          | nil =>
            simp only [List.nil_append] at heq
            have hxt : x = t := (List.cons.injEq _ _ _ _ ▸ heq).1
            subst hxt
            obtain ⟨p, hp, hpc⟩ := List.any_eq_true.mp hany
            exact Or.inl ⟨p, hp, string_contains_iff.mp hpc⟩
          | cons a l₁' =>
            simp only [List.cons_append, List.cons.injEq] at heq
            rcases ih amap (resolved ++ [toolRespId x]) l₁' l₂ t heq.2 htool
              with h | ⟨A, hA, h1, h2⟩
            · exact Or.inl h
            · exact Or.inr ⟨A, by simp [hA], h1, h2⟩
        next =>
          intro heq
          exact ih amap resolved l₁ l₂ t heq htool
      next htoolx =>
        intro heq
        cases l₁ with
        | nil =>
          simp only [List.nil_append] at heq
          have hxt : x = t := (List.cons.injEq _ _ _ _ ▸ heq).1
          subst hxt
          exact absurd htool (by simpa using htoolx)
        | cons a l₁' =>
          simp only [List.cons_append, List.cons.injEq] at heq
          rcases ih amap resolved l₁' l₂ t heq.2 htool with h | ⟨A, hA, h1, h2⟩
          · exact Or.inl h
          · exact Or.inr ⟨A, by simp [hA], h1, h2⟩

/-- The id of every kept tool response lands in the final resolved list. -/
theorem cleanupPass1_tool_resolved :
    ∀ (msgs : List MessageRecord) (amap : List (MessageRecord × List String))
      (resolved : List String) (t : MessageRecord),
      t ∈ (cleanupPass1 msgs amap resolved).1 → isToolRespRec t = true →
      toolRespId t ∈ (cleanupPass1 msgs amap resolved).2.2 := by
  intro msgs
  induction msgs with
  | nil => intro amap resolved t ht; simp [cleanupPass1] at ht
  | cons x rest ih =>
    intro amap resolved t ht htool
    revert ht
    unfold cleanupPass1
    split
    next hx =>
      dsimp only
      split
      · intro ht
        rcases List.mem_cons.mp ht with h | h
        · subst h; exact absurd htool (fun h2 => not_asst_and_tool hx h2)
        · exact ih amap resolved t h htool
      · intro ht
        rcases List.mem_cons.mp ht with h | h
        · subst h; exact absurd htool (fun h2 => not_asst_and_tool hx h2)
        · exact ih (amap ++ [(x, asstCallIds x)]) resolved t h htool
    next hx =>
      split
      next htoolx =>
        split
        · intro ht
          rcases List.mem_cons.mp ht with h | h
          · subst h
            obtain ⟨d, hd⟩ := cleanupPass1_res_mono rest amap (resolved ++ [toolRespId t])
            rw [hd]
            simp
          · exact ih amap (resolved ++ [toolRespId x]) t h htool
        · intro ht
          exact ih amap resolved t ht htool
      next htoolx =>
        intro ht
        rcases List.mem_cons.mp ht with h | h
        · subst h; exact absurd htool (by simpa using htoolx)
        · exact ih amap resolved t h htool

/-- Every final resolved id is initial or the id of a kept tool response. -/
theorem cleanupPass1_res_mem :
    ∀ (msgs : List MessageRecord) (amap : List (MessageRecord × List String))
      (resolved : List String) (i : String),
      i ∈ (cleanupPass1 msgs amap resolved).2.2 →
      i ∈ resolved ∨
        ∃ t ∈ (cleanupPass1 msgs amap resolved).1,
          isToolRespRec t = true ∧ toolRespId t = i := by
  intro msgs
  induction msgs with
  | nil => intro amap resolved i hi; left; simpa [cleanupPass1] using hi
  | cons x rest ih =>
    intro amap resolved i hi
    revert hi
    unfold cleanupPass1
    split
    next hx =>
      dsimp only
      split
      · intro hi
        rcases ih amap resolved i hi with h | ⟨t, ht, h1, h2⟩
        · exact Or.inl h
        · exact Or.inr ⟨t, by simp [ht], h1, h2⟩
      · intro hi
        rcases ih (amap ++ [(x, asstCallIds x)]) resolved i hi with h | ⟨t, ht, h1, h2⟩
        · exact Or.inl h
        · exact Or.inr ⟨t, by simp [ht], h1, h2⟩
    next hx =>
      split
      next htoolx =>
        split
        · intro hi
          rcases ih amap (resolved ++ [toolRespId x]) i hi with h | ⟨t, ht, h1, h2⟩
          · rcases List.mem_append.mp h with h | h
            · exact Or.inl h
            · have : i = toolRespId x := by simpa using h
              exact Or.inr ⟨x, by simp, htoolx, this.symm⟩
          · exact Or.inr ⟨t, by simp [ht], h1, h2⟩
        · intro hi
          exact ih amap resolved i hi
      next =>
        intro hi
        rcases ih amap resolved i hi with h | ⟨t, ht, h1, h2⟩
        · exact Or.inl h
        · exact Or.inr ⟨t, by simp [ht], h1, h2⟩

/-! ## Characterisation of pass 2. -/

/-- A tool response whose id is already in the skip set never survives
pass 2. -/
theorem cleanupPass2_skip_kills (amap : List (MessageRecord × List String))
    (resolved : List String) :
    ∀ (msgs : List MessageRecord) (skip : List String) (t : MessageRecord),
      isToolRespRec t = true → skip.contains (toolRespId t) = true →
      t ∉ cleanupPass2 amap resolved msgs skip := by
  intro msgs
  induction msgs with
  | nil => intro skip t _ _; simp [cleanupPass2]
  | cons x rest ih =>
    intro skip t htool hskip hmem
    have hrole : t.role = "tool" := (isToolRespRec_eq_true.mp htool).1
    revert hmem
    unfold cleanupPass2
    split
    next hxrole =>
      have hxrole' : x.role = "assistant" := by simpa using hxrole
      split
      next p' hfind =>
        split
        next =>
          split
          next =>
            intro hmem
            rcases List.mem_cons.mp hmem with h | h
            · subst h; rw [hrole] at hxrole'; exact absurd hxrole' (by decide)
            · exact ih skip t htool hskip h
          next =>
            intro hmem
            refine ih (skip ++ p'.2) t htool ?_ hmem
            rw [string_contains_iff] at hskip ⊢
            exact List.mem_append.mpr (Or.inl hskip)
        next =>
          intro hmem
          rcases List.mem_cons.mp hmem with h | h
          · subst h; rw [hrole] at hxrole'; exact absurd hxrole' (by decide)
          · exact ih skip t htool hskip h
      next hfind =>
        intro hmem
        rcases List.mem_cons.mp hmem with h | h
        · subst h; rw [hrole] at hxrole'; exact absurd hxrole' (by decide)
        · exact ih skip t htool hskip h
    next hxrole =>
      split
      next hxtool =>
        split
        next =>
          intro hmem
          exact ih skip t htool hskip hmem
        next hxskip =>
          intro hmem
          rcases List.mem_cons.mp hmem with h | h
          · subst h; exact absurd hskip hxskip
          · exact ih skip t htool hskip h
      next hxt =>
        intro hmem
        rcases List.mem_cons.mp hmem with h | h
        · subst h; exact absurd htool hxt
        · exact ih skip t htool hskip h

/-- A tool response survives pass 2 when its id is not yet skipped and every
map entry carrying its id is fully resolved (so no such entry is ever
dropped). -/
theorem cleanupPass2_tool_kept (amap : List (MessageRecord × List String))
    (resolved : List String) :
    ∀ (msgs : List MessageRecord) (skip : List String) (t : MessageRecord),
      t ∈ msgs → isToolRespRec t = true →
      skip.contains (toolRespId t) = false →
      (∀ p ∈ amap, toolRespId t ∈ p.2 →
        p.2.all (fun i => resolved.contains i) = true) →
      t ∈ cleanupPass2 amap resolved msgs skip := by
  intro msgs
  induction msgs with
  | nil => intro skip t ht; simp at ht
  | cons x rest ih =>
    intro skip t hmem htool hskip hsafe
    have hrole : t.role = "tool" := (isToolRespRec_eq_true.mp htool).1
    rcases List.mem_cons.mp hmem with hx | hx
    · -- t is the head: kept by the tool branch
      subst hx
      unfold cleanupPass2
      rw [if_neg (by simp [hrole]), if_pos (by simp [htool]),
        if_neg (by rw [hskip]; exact Bool.false_ne_true)]
      exact List.mem_cons_self _ _
    · -- t occurs later: survive the head step
      unfold cleanupPass2
      split
      next hxrole =>
        split
        next p' hfind =>
          split
          next =>
            split
            next => exact List.mem_cons_of_mem _ (ih skip t hx htool hskip hsafe)
            next hall =>
              refine ih (skip ++ p'.2) t hx htool ?_ hsafe
              rw [Bool.eq_false_iff]
              intro hc
              rw [string_contains_iff, List.mem_append] at hc
              rcases hc with hc | hc
              · rw [← string_contains_iff] at hc
                exact Bool.noConfusion (hskip.symm.trans hc)
              · exact hall (hsafe p' (List.mem_of_find?_eq_some hfind) hc)
          next => exact List.mem_cons_of_mem _ (ih skip t hx htool hskip hsafe)
        next => exact List.mem_cons_of_mem _ (ih skip t hx htool hskip hsafe)
      next =>
        split
        next =>
          split
          next => exact ih skip t hx htool hskip hsafe
          next => exact List.mem_cons_of_mem _ (ih skip t hx htool hskip hsafe)
        next => exact List.mem_cons_of_mem _ (ih skip t hx htool hskip hsafe)

/-- An assistant record survives pass 2 whenever its map entry (if any) is
fully resolved. -/
theorem cleanupPass2_asst_kept (amap : List (MessageRecord × List String))
    (resolved : List String) :
    ∀ (msgs : List MessageRecord) (skip : List String) (m : MessageRecord),
      m ∈ msgs → m.role = "assistant" →
      (∀ p, amap.find? (fun q => q.1.uid == m.uid) = some p →
        p.2.all (fun i => resolved.contains i) = true) →
      m ∈ cleanupPass2 amap resolved msgs skip := by
  intro msgs
  induction msgs with
  | nil => intro skip m hm; simp at hm
  | cons x rest ih =>
    intro skip m hmem hrole hres
    rcases List.mem_cons.mp hmem with hx | hx
    · subst hx
      unfold cleanupPass2
      rw [if_pos (by simp [hrole])]
      split
      next p' hfind =>
        split
        next =>
          rw [if_pos (hres p' hfind)]
          exact List.mem_cons_self _ _
        next => exact List.mem_cons_self _ _
      next => exact List.mem_cons_self _ _
    · unfold cleanupPass2
      split
      next =>
        split
        next p' hfind =>
          split
          next =>
            split
            next => exact List.mem_cons_of_mem _ (ih _ m hx hrole hres)
            next => exact ih _ m hx hrole hres
          next => exact List.mem_cons_of_mem _ (ih _ m hx hrole hres)
        next => exact List.mem_cons_of_mem _ (ih _ m hx hrole hres)
      next =>
        split
        next =>
          split
          next => exact ih _ m hx hrole hres
          next => exact List.mem_cons_of_mem _ (ih _ m hx hrole hres)
        next => exact List.mem_cons_of_mem _ (ih _ m hx hrole hres)

/-- An assistant record that survives pass 2 has its map entry fully
resolved (under distinct uids). -/
theorem cleanupPass2_asst_resolved (amap : List (MessageRecord × List String))
    (resolved : List String) :
    ∀ (msgs : List MessageRecord) (skip : List String) (m : MessageRecord),
      (msgs.map MessageRecord.uid).Nodup →
      m ∈ cleanupPass2 amap resolved msgs skip →
      m.role = "assistant" →
      ∀ p, amap.find? (fun q => q.1.uid == m.uid) = some p → ¬p.2.isEmpty = true →
        p.2.all (fun i => resolved.contains i) = true := by
  intro msgs
  induction msgs with
  | nil => intro skip m _ hm; simp [cleanupPass2] at hm
  | cons x rest ih =>
    intro skip m hnd hmem hrole p hfind hne
    have hnd' : (rest.map MessageRecord.uid).Nodup := by
      simpa using hnd.of_cons
    revert hmem
    unfold cleanupPass2
    split
    next hxrole =>
      split
      next p' hfind' =>
        split
        next =>
          split
          next hall =>
            intro hmem
            rcases List.mem_cons.mp hmem with h | h
            · subst h
              rw [hfind] at hfind'
              cases hfind'
              exact hall
            · exact ih skip m hnd' h hrole p hfind hne
          next =>
            intro hmem
            exact ih _ m hnd' hmem hrole p hfind hne
        next hempty =>
          intro hmem
          rcases List.mem_cons.mp hmem with h | h
          · subst h
            rw [hfind] at hfind'
            cases hfind'
            exact absurd (by simpa using hempty) hne
          · exact ih skip m hnd' h hrole p hfind hne
      next hfind' =>
        intro hmem
        rcases List.mem_cons.mp hmem with h | h
        · subst h
          rw [hfind] at hfind'
          exact Option.noConfusion hfind'
        · exact ih skip m hnd' h hrole p hfind hne
    next hxrole =>
      split
      next =>
        split
        next =>
          intro hmem
          exact ih skip m hnd' hmem hrole p hfind hne
        next =>
          intro hmem
          rcases List.mem_cons.mp hmem with h | h
          · subst h; exact absurd (by simp [hrole]) hxrole
          · exact ih skip m hnd' h hrole p hfind hne
      next =>
        intro hmem
        rcases List.mem_cons.mp hmem with h | h
        · subst h; exact absurd (by simp [hrole]) hxrole
        · exact ih skip m hnd' h hrole p hfind hne

/-- A tool response occurring after an assistant whose map entry is only
partially resolved is dropped by pass 2 together with that assistant. -/
theorem cleanupPass2_tool_killed (amap : List (MessageRecord × List String))
    (resolved : List String) :
    ∀ (l₁ l₂ : List MessageRecord) (A t : MessageRecord)
      (p : MessageRecord × List String) (skip : List String),
      isToolRespRec t = true → t ∉ l₁ → t ≠ A →
      A.role = "assistant" →
      amap.find? (fun q => q.1.uid == A.uid) = some p →
      ¬p.2.isEmpty = true →
      ¬(p.2.all (fun i => resolved.contains i) = true) →
      toolRespId t ∈ p.2 →
      t ∉ cleanupPass2 amap resolved (l₁ ++ A :: l₂) skip := by
  intro l₁
  induction l₁ with
  | nil =>
    intro l₂ A t p skip htool _ htA hArole hfind hne hall hid hmem
    rw [List.nil_append] at hmem
    revert hmem
    unfold cleanupPass2
    rw [if_pos (by simp [hArole]), hfind]
    dsimp only
    rw [if_pos hne, if_neg hall]
    exact cleanupPass2_skip_kills amap resolved l₂ _ t htool
      (string_contains_iff.mpr (List.mem_append.mpr (Or.inr hid)))
  | cons h l₁' ih =>
    intro l₂ A t p skip htool htl1 htA hArole hfind hne hall hid hmem
    have hth : t ≠ h := fun he => htl1 (he ▸ List.mem_cons_self _ _)
    have htl1' : t ∉ l₁' := fun he => htl1 (List.mem_cons_of_mem _ he)
    rw [List.cons_append] at hmem
    revert hmem
    unfold cleanupPass2
    split
    next =>
      split
      next p' hfind' =>
        split
        next =>
          split
          next =>
            intro hmem
            rcases List.mem_cons.mp hmem with he | he
            · exact hth he
            · exact ih l₂ A t p _ htool htl1' htA hArole hfind hne hall hid he
          next =>
            intro hmem
            exact ih l₂ A t p _ htool htl1' htA hArole hfind hne hall hid hmem
        next =>
          intro hmem
          rcases List.mem_cons.mp hmem with he | he
          · exact hth he
          · exact ih l₂ A t p _ htool htl1' htA hArole hfind hne hall hid he
      next =>
        intro hmem
        rcases List.mem_cons.mp hmem with he | he
        · exact hth he
        · exact ih l₂ A t p _ htool htl1' htA hArole hfind hne hall hid he
    next =>
      split
      next =>
        split
        next =>
          intro hmem
          exact ih l₂ A t p _ htool htl1' htA hArole hfind hne hall hid hmem
        next =>
          intro hmem
          rcases List.mem_cons.mp hmem with he | he
          · exact hth he
          · exact ih l₂ A t p _ htool htl1' htA hArole hfind hne hall hid he
      next =>
        intro hmem
        rcases List.mem_cons.mp hmem with he | he
        · exact hth he
        · exact ih l₂ A t p _ htool htl1' htA hArole hfind hne hall hid he

/-- A relation holding for every ordered pair of members holds pairwise. -/
theorem pairwiseOfMem {α : Type} {r : α → α → Prop} :
    ∀ (l : List α), (∀ a ∈ l, ∀ b ∈ l, r a b) → l.Pairwise r := by
  intro l
  induction l with
  | nil => intro _; exact List.Pairwise.nil
  | cons x rest ih =>
    intro h
    exact List.Pairwise.cons
      (fun b hb => h x (by simp) b (by simp [hb]))
      (ih fun a ha b hb => h a (by simp [ha]) b (by simp [hb]))

/-- A sublist of a uid-distinct list preserves relative order: if `a` occurs
before `b` in the base list and both survive, `a` still occurs before `b`. -/
theorem sublist_order_uid {l T : List MessageRecord} (hsub : T.Sublist l)
    (hnd : (l.map MessageRecord.uid).Nodup) (a b : MessageRecord)
    (u v w : List MessageRecord) (hl : l = u ++ a :: (v ++ b :: w))
    (haT : a ∈ T) (hbT : b ∈ T) :
    ∃ u' w', T = u' ++ a :: w' ∧ b ∈ w' := by
  classical
  have hinj : ∀ x ∈ l, ∀ y ∈ l, x.uid = y.uid → x = y := by
    intro x hx y hy h
    exact List.inj_on_of_nodup_map hnd hx hy h
  have hl2 : l = (u ++ a :: v) ++ b :: w := by rw [hl]; simp
  have hdisj : ∀ x ∈ u ++ a :: v, ∀ y ∈ b :: w, x.uid ≠ y.uid := by
    have h2 := hnd
    rw [hl2, List.map_append] at h2
    have hd := List.disjoint_of_nodup_append h2
    intro x hx y hy he
    exact hd (List.mem_map_of_mem _ hx) (he ▸ List.mem_map_of_mem _ hy)
  have haneb : a ≠ b := by
    intro he
    exact hdisj a (by simp) b (by simp) (by rw [he])
  have hP : l.Pairwise fun x y => ¬(x.uid = b.uid ∧ y.uid = a.uid) := by
    rw [hl2]
    rw [List.pairwise_append]
    refine ⟨?_, ?_, ?_⟩
    · refine pairwiseOfMem _ ?_
      intro x hx y _ hxy
      exact hdisj x hx b (by simp) hxy.1
    · refine pairwiseOfMem _ ?_
      intro x _ y hy hxy
      exact hdisj a (by simp) y hy hxy.2.symm
    · intro x hx y _ hxy
      exact hdisj x hx b (by simp) hxy.1
  have hPT := hP.sublist hsub
  obtain ⟨u', w', hT⟩ := List.append_of_mem haT
  refine ⟨u', w', hT, ?_⟩
  have hbw : b ∈ u' ∨ b = a ∨ b ∈ w' := by
    have := hbT
    rw [hT] at this
    rcases List.mem_append.mp this with h | h
    · exact Or.inl h
    · rcases List.mem_cons.mp h with h | h
      · exact Or.inr (Or.inl h)
      · exact Or.inr (Or.inr h)
  rcases hbw with h | h | h
  · exfalso
    rw [hT, List.pairwise_append] at hPT
    exact hPT.2.2 b h a (by simp) ⟨rfl, rfl⟩
  · exact absurd h.symm haneb
  · exact h

/-- Decomposition at a record is unique when the record appears in neither
prefix. -/
theorem decomp_unique {α : Type} :
    ∀ (l₁ l₁' : List α) (t : α) (l₂ l₂' : List α), t ∉ l₁ → t ∉ l₁' →
      l₁ ++ t :: l₂ = l₁' ++ t :: l₂' → l₁ = l₁' ∧ l₂ = l₂' := by
  intro l₁
  induction l₁ with
  | nil =>
    intro l₁' t l₂ l₂' _ ht' heq
    cases l₁' with
    | nil => simpa using heq
    | cons y r' =>
      exfalso
      simp only [List.nil_append, List.cons_append, List.cons.injEq] at heq
      exact ht' (heq.1 ▸ List.mem_cons_self _ _)
  | cons x r ih =>
    intro l₁' t l₂ l₂' ht ht' heq
    cases l₁' with
    | nil =>
      exfalso
      simp only [List.nil_append, List.cons_append, List.cons.injEq] at heq
      exact ht (heq.1 ▸ List.mem_cons_self _ _)
    | cons y r' =>
      simp only [List.cons_append, List.cons.injEq] at heq
      obtain ⟨h1, h2⟩ := ih r' t l₂ l₂'
        (fun hm => ht (List.mem_cons_of_mem _ hm))
        (fun hm => ht' (List.mem_cons_of_mem _ hm)) heq.2
      exact ⟨by rw [heq.1, h1], h2⟩

/-- Core pairing property of the cleanup: over any uid-distinct base list with
globally unique tool-call ids, every surviving assistant has all its call ids
answered by surviving tool responses, and every surviving tool response has
its owning assistant surviving earlier in the output. -/
theorem cleanup_pairing_core (B : List MessageRecord)
    (hBN : (B.map MessageRecord.uid).Nodup)
    (hD : ∀ m ∈ B, ∀ m' ∈ B, m.uid ≠ m'.uid →
      ∀ i ∈ asstCallIds m, i ∉ asstCallIds m') :
    (∀ A ∈ cleanupToolPairs B, isAssistantRec A = true →
      ∀ i ∈ asstCallIds A, ∃ t ∈ cleanupToolPairs B,
        isToolRespRec t = true ∧ toolRespId t = i) ∧
    (∀ r ∈ cleanupToolPairs B, isToolRespRec r = true →
      ∃ A, isAssistantRec A = true ∧ toolRespId r ∈ asstCallIds A ∧
        ∃ u w, cleanupToolPairs B = u ++ A :: w ∧ r ∈ w) := by
  classical
  have hinj : ∀ a ∈ B, ∀ b ∈ B, a.uid = b.uid → a = b := by
    intro a ha b hb h
    exact List.inj_on_of_nodup_map hBN ha hb h
  have hT : cleanupToolPairs B =
      (if (cleanupPass1 B [] []).2.1.isEmpty = true then (cleanupPass1 B [] []).1
       else cleanupPass2 (cleanupPass1 B [] []).2.1 (cleanupPass1 B [] []).2.2
         (cleanupPass1 B [] []).1 []) := rfl
  have hclsub : (cleanupPass1 B [] []).1.Sublist B := cleanupPass1_sublist B [] []
  have hclN : ((cleanupPass1 B [] []).1.map MessageRecord.uid).Nodup :=
    hBN.sublist (hclsub.map _)
  have Hamap : ∀ p ∈ (cleanupPass1 B [] []).2.1,
      p.1 ∈ (cleanupPass1 B [] []).1 ∧ isAssistantRec p.1 = true ∧
        p.2 = asstCallIds p.1 ∧ p.2 ≠ [] := by
    intro p hp
    rcases cleanupPass1_amap_mem B [] [] p hp with h | h
    · simp at h
    · exact h
  have findResolve : ∀ m ∈ (cleanupPass1 B [] []).1, ∀ p',
      (cleanupPass1 B [] []).2.1.find? (fun q => q.1.uid == m.uid) = some p' →
      p'.2 = asstCallIds m := by
    intro m hm p' hfind
    have hp' := Hamap p' (List.mem_of_find?_eq_some hfind)
    have huid : p'.1.uid = m.uid := by simpa using List.find?_some hfind
    have : p'.1 = m := hinj p'.1 (hclsub.mem hp'.1) m (hclsub.mem hm) huid
    rw [hp'.2.2.1, this]
  constructor
  · -- direction 1: every surviving tool-call id is answered
    intro A hA hasst i hi
    have hrole : A.role = "assistant" := (isAssistantRec_eq_true.mp hasst).1
    have hidne : asstCallIds A ≠ [] := fun he => by rw [he] at hi; simp at hi
    by_cases hemp : (cleanupPass1 B [] []).2.1.isEmpty = true
    · rw [hT, if_pos hemp] at hA
      have := cleanupPass1_amap_complete B [] [] A hA hasst hidne
      rw [List.isEmpty_iff] at hemp
      rw [hemp] at this
      simp at this
    · rw [hT, if_neg hemp] at hA ⊢
      have hAclean : A ∈ (cleanupPass1 B [] []).1 :=
        (cleanupPass2_sublist _ _ _ _).mem hA
      have hAentry := cleanupPass1_amap_complete B [] [] A hAclean hasst hidne
      obtain ⟨p', hfind⟩ : ∃ p', (cleanupPass1 B [] []).2.1.find?
          (fun q => q.1.uid == A.uid) = some p' :=
        Option.isSome_iff_exists.mp
          (List.find?_isSome.mpr ⟨(A, asstCallIds A), hAentry, by simp⟩)
      have hpids : p'.2 = asstCallIds A := findResolve A hAclean p' hfind
      have hallres : p'.2.all (fun j => (cleanupPass1 B [] []).2.2.contains j) = true :=
        cleanupPass2_asst_resolved _ _ _ [] A hclN hA hrole p' hfind
          (by rw [hpids]; simpa using hidne)
      have hres : i ∈ (cleanupPass1 B [] []).2.2 :=
        string_contains_iff.mp (List.all_eq_true.mp hallres i (hpids ▸ hi))
      rcases cleanupPass1_res_mem B [] [] i hres with h | ⟨t, ht, htool, hteq⟩
      · simp at h
      · have hsafe : ∀ p ∈ (cleanupPass1 B [] []).2.1, toolRespId t ∈ p.2 →
            p.2.all (fun j => (cleanupPass1 B [] []).2.2.contains j) = true := by
          intro p hp hidp
          have hpc := Hamap p hp
          rw [hteq] at hidp
          have hpuid : p.1.uid = A.uid := by
            by_contra hne2
            exact hD p.1 (hclsub.mem hpc.1) A (hclsub.mem hAclean) hne2 i
              (hpc.2.2.1 ▸ hidp) hi
          have hpA : p.1 = A := hinj p.1 (hclsub.mem hpc.1) A (hclsub.mem hAclean) hpuid
          rw [hpc.2.2.1, hpA, ← hpids]
          exact hallres
        exact ⟨t, cleanupPass2_tool_kept _ _ _ [] t ht htool rfl hsafe, htool, hteq⟩
  · -- direction 2: every surviving tool response has its assistant earlier
    intro r hr htool
    by_cases hemp : (cleanupPass1 B [] []).2.1.isEmpty = true
    · rw [hT, if_pos hemp] at hr
      obtain ⟨l₁, l₂, heq⟩ := List.append_of_mem hr
      rcases cleanupPass1_tool_covered B [] [] l₁ l₂ r heq htool
        with ⟨p, hp, _⟩ | ⟨A, hAl, hAa, hAid⟩
      · simp at hp
      · exfalso
        have hAclean : A ∈ (cleanupPass1 B [] []).1 := by
          rw [heq]; exact List.mem_append.mpr (Or.inl hAl)
        have := cleanupPass1_amap_complete B [] [] A hAclean hAa
          (fun he => by rw [he] at hAid; simp at hAid)
        rw [List.isEmpty_iff] at hemp
        rw [hemp] at this
        simp at this
    · rw [hT, if_neg hemp] at hr ⊢
      have hrclean : r ∈ (cleanupPass1 B [] []).1 :=
        (cleanupPass2_sublist _ _ _ _).mem hr
      obtain ⟨l₁, l₂, heq⟩ := List.append_of_mem hrclean
      rcases cleanupPass1_tool_covered B [] [] l₁ l₂ r heq htool
        with ⟨p, hp, _⟩ | ⟨A, hAl, hAa, hAid⟩
      · simp at hp
      · have hAclean : A ∈ (cleanupPass1 B [] []).1 := by
          rw [heq]; exact List.mem_append.mpr (Or.inl hAl)
        have hArole : A.role = "assistant" := (isAssistantRec_eq_true.mp hAa).1
        have hAidne : asstCallIds A ≠ [] :=
          fun he => by rw [he] at hAid; simp at hAid
        have hAentry := cleanupPass1_amap_complete B [] [] A hAclean hAa hAidne
        obtain ⟨p', hfind⟩ : ∃ p', (cleanupPass1 B [] []).2.1.find?
            (fun q => q.1.uid == A.uid) = some p' :=
          Option.isSome_iff_exists.mp
            (List.find?_isSome.mpr ⟨(A, asstCallIds A), hAentry, by simp⟩)
        have hpids : p'.2 = asstCallIds A := findResolve A hAclean p' hfind
        obtain ⟨u, v, hl₁⟩ := List.append_of_mem hAl
        have hdecomp : (cleanupPass1 B [] []).1 = u ++ A :: (v ++ r :: l₂) := by
          rw [heq, hl₁]; simp
        by_cases hall : p'.2.all
            (fun j => (cleanupPass1 B [] []).2.2.contains j) = true
        · have hAT : A ∈ cleanupPass2 (cleanupPass1 B [] []).2.1
              (cleanupPass1 B [] []).2.2 (cleanupPass1 B [] []).1 [] :=
            cleanupPass2_asst_kept _ _ _ [] A hAclean hArole (by
              intro p'' hfind''
              rw [hfind] at hfind''
              cases hfind''
              exact hall)
          obtain ⟨u', w', hTd, hrw⟩ := sublist_order_uid (cleanupPass2_sublist _ _ _ [])
            hclN A r u v l₂ hdecomp hAT hr
          exact ⟨A, hAa, hAid, u', w', hTd, hrw⟩
        · exfalso
          have hdisjuid : ∀ x ∈ l₁, x.uid ≠ r.uid := by
            have h2 := hclN
            rw [heq, List.map_append] at h2
            have hd := List.disjoint_of_nodup_append h2
            intro x hx hxe
            exact hd (List.mem_map_of_mem _ hx) (by rw [hxe]; simp)
          have hrnotu : r ∉ u := fun hru =>
            hdisjuid r (hl₁ ▸ List.mem_append.mpr (Or.inl hru)) rfl
          have hrneA : r ≠ A := fun he => hdisjuid A hAl (by rw [he])
          have := cleanupPass2_tool_killed (cleanupPass1 B [] []).2.1
            (cleanupPass1 B [] []).2.2 u (v ++ r :: l₂) A r p' [] htool hrnotu hrneA
            hArole hfind (by rw [hpids]; simpa using hAidne) hall (hpids ▸ hAid)
          rw [← hdecomp] at this
          exact this hr

/-- C3: after `trim()` (with tool-call ids globally unique across assistants,
as the id generator guarantees, and distinct record objects), every surviving
assistant record with tool calls has all of its call ids answered by surviving
tool response records, and every surviving tool response belongs to a
surviving assistant — no orphans in either direction; an assistant whose call
set is only partially resolved is removed together with its responses. -/
theorem trim_pairing (now : Int) (ctx : ConversationContext)
    (hN : (ctx.messages.map MessageRecord.uid).Nodup)
    (hD : ∀ m ∈ ctx.messages, ∀ m' ∈ ctx.messages, m.uid ≠ m'.uid →
      ∀ i ∈ asstCallIds m, i ∉ asstCallIds m') :
    (∀ m ∈ (ctx.trim now).messages, m.role = "assistant" →
      ∀ tcs fr, m.kind = .assistant tcs fr → tcs ≠ [] →
      ∀ tc ∈ tcs, ∃ r ∈ (ctx.trim now).messages,
        r.role = "tool" ∧ ∃ dat, r.kind = .toolResponse tc.id dat) ∧
    (∀ r ∈ (ctx.trim now).messages, r.role = "tool" →
      ∀ tid dat, r.kind = .toolResponse tid dat →
      ∃ m ∈ (ctx.trim now).messages, isAssistantRec m = true ∧ tid ∈ asstCallIds m) := by
  have hBsub : (tokenBudget ctx.context_window
      (ageFilter now ctx.context_age ctx.messages)).Sublist ctx.messages :=
    (tokenBudget_sublist _ _).trans (List.filter_sublist _)
  have hBN := hN.sublist (hBsub.map MessageRecord.uid)
  have hBD : ∀ m ∈ tokenBudget ctx.context_window
        (ageFilter now ctx.context_age ctx.messages),
      ∀ m' ∈ tokenBudget ctx.context_window
        (ageFilter now ctx.context_age ctx.messages),
      m.uid ≠ m'.uid → ∀ i ∈ asstCallIds m, i ∉ asstCallIds m' := by
    intro m hm m' hm' hne i h1 h2
    exact hD m (hBsub.mem hm) m' (hBsub.mem hm') hne i h1 h2
  have hcore := cleanup_pairing_core _ hBN hBD
  have hTdef : (ctx.trim now).messages = cleanupToolPairs (tokenBudget ctx.context_window
      (ageFilter now ctx.context_age ctx.messages)) := rfl
  constructor
  · intro m hm hrole tcs fr hkind hne tc htc
    rw [hTdef] at hm ⊢
    have hasst : isAssistantRec m = true :=
      isAssistantRec_eq_true.mpr ⟨hrole, tcs, fr, hkind⟩
    have hi : tc.id ∈ asstCallIds m := by
      simp only [asstCallIds, hkind]
      exact List.mem_map_of_mem _ htc
    obtain ⟨t, htT, htool, hteq⟩ := hcore.1 m hm hasst tc.id hi
    obtain ⟨hrole2, tid2, dat2, hkind2⟩ := isToolRespRec_eq_true.mp htool
    refine ⟨t, htT, hrole2, dat2, ?_⟩
    rw [hkind2]
    have h3 : toolRespId t = tid2 := by simp [toolRespId, hkind2]
    rw [← hteq, h3]
  · intro r hr hrole tid dat hkind
    rw [hTdef] at hr ⊢
    have htool : isToolRespRec r = true :=
      isToolRespRec_eq_true.mpr ⟨hrole, tid, dat, hkind⟩
    obtain ⟨A, hAa, hAid, u, w, hTd, _⟩ := hcore.2 r hr htool
    have hrid : toolRespId r = tid := by simp [toolRespId, hkind]
    refine ⟨A, ?_, hAa, hrid ▸ hAid⟩
    rw [hTd]
    simp

/-- Witness for C3 at the concrete context. -/
theorem trim_pairing_witness :
    ((c3ctx.messages.map MessageRecord.uid).Nodup ∧
     ∀ m ∈ c3ctx.messages, ∀ m' ∈ c3ctx.messages, m.uid ≠ m'.uid →
       ∀ i ∈ asstCallIds m, i ∉ asstCallIds m') ∧
    (∀ m ∈ (c3ctx.trim 0).messages, m.role = "assistant" →
      ∀ tcs fr, m.kind = .assistant tcs fr → tcs ≠ [] →
      ∀ tc ∈ tcs, ∃ r ∈ (c3ctx.trim 0).messages,
        r.role = "tool" ∧ ∃ dat, r.kind = .toolResponse tc.id dat) ∧
    (∀ r ∈ (c3ctx.trim 0).messages, r.role = "tool" →
      ∀ tid dat, r.kind = .toolResponse tid dat →
      ∃ m ∈ (c3ctx.trim 0).messages, isAssistantRec m = true ∧ tid ∈ asstCallIds m) :=
  ⟨⟨by decide, by decide⟩,
   (trim_pairing 0 c3ctx (by decide) (by decide)).1,
   (trim_pairing 0 c3ctx (by decide) (by decide)).2⟩

/-! ## Claim C4: idempotence of `trim`. -/

/-- With no positive window the budget pass keeps the whole list. -/
theorem tokenBudget_unlimited (W : Int) (hW : W ≤ 0) (S : List MessageRecord) :
    tokenBudget W S = S := by
  unfold tokenBudget
  rw [budgetFold_unlimited W hW S.reverse [] 0]
  simp

/-- `sumTokens` is invariant under reversal. -/
theorem sumTokens_reverse (l : List MessageRecord) : sumTokens l.reverse = sumTokens l := by
  simp [sumTokens, List.sum_reverse]

/-- A list whose total fits the positive window passes the budget pass
unchanged. -/
theorem tokenBudget_fits (W : Int) (hW : 0 < W) (S : List MessageRecord)
    (hsum : (sumTokens S : Int) ≤ W) : tokenBudget W S = S := by
  cases hrev : S.reverse with
  | nil =>
    have hS : S = [] := by
      rw [← List.reverse_reverse S, hrev]
      rfl
    rw [hS]
    rfl
  | cons n rest =>
    have hS : S = rest.reverse ++ [n] := by
      rw [← List.reverse_reverse S, hrev]
      simp
    have hsum2 : sumTokens S = n.token_count + sumTokens rest := by
      rw [← sumTokens_reverse S, hrev, sumTokens_cons]
    rw [hsum2] at hsum
    push_cast at hsum
    unfold tokenBudget
    rw [hrev, List.foldl_cons]
    by_cases hn : W ≤ (n.token_count : Int)
    · rw [tokenBudgetFold_first W n 0 (Or.inr hn), if_pos hW, min_eq_right hn,
        budgetFold_light W hW rest [n] W (by simp) (by omega)]
      exact hS.symm
    · push_neg at hn
      rw [tokenBudgetFold_keep W n [] 0
        (by intro h; rcases h.2 with h2 | h2 <;> omega) (Or.inr (by omega)),
        budgetFold_light W hW rest [n] (0 + (n.token_count : Int)) (by simp) (by omega)]
      exact hS.symm

/-- The budget pass is stable: any sublist of its output (in particular the
output itself) passes through unchanged. -/
theorem tokenBudget_stable (W : Int) (l S : List MessageRecord)
    (hS : S.Sublist (tokenBudget W l)) : tokenBudget W S = S := by
  rcases le_or_lt W 0 with hW | hW
  · exact tokenBudget_unlimited W hW S
  cases hrev : l.reverse with
  | nil =>
    have hB : tokenBudget W l = [] := by
      unfold tokenBudget
      rw [hrev]
      rfl
    rw [hB] at hS
    rw [List.sublist_nil.mp hS]
    rfl
  | cons n rest =>
    by_cases hn : W ≤ (n.token_count : Int)
    · have hB : tokenBudget W l = (rest.filter fun m => m.token_count == 0).reverse ++ [n] := by
        unfold tokenBudget
        rw [hrev, List.foldl_cons, tokenBudgetFold_first W n 0 (Or.inr hn),
          if_pos hW, min_eq_right hn, budgetFold_heavy W hW rest [n] (by simp)]
      rw [hB] at hS
      obtain ⟨S₁, S₂, hSeq, hS₁, hS₂⟩ := List.sublist_append_iff.mp hS
      have hz : ∀ m ∈ S₁, m.token_count = 0 := by
        intro m hm
        have := List.mem_filter.mp (List.mem_reverse.mp (hS₁.mem hm))
        simpa using this.2
      cases hS₂ with
      | cons₂ _ hnil =>
        rw [List.sublist_nil.mp hnil] at hSeq
        rw [hSeq]
        unfold tokenBudget
        rw [List.reverse_append]
        show (List.foldl (tokenBudgetFold W) ([], 0) (n :: S₁.reverse)).1 = S₁ ++ [n]
        rw [List.foldl_cons, tokenBudgetFold_first W n 0 (Or.inr hn), if_pos hW,
          min_eq_right hn, budgetFold_heavy W hW S₁.reverse [n] (by simp)]
        have hfil : S₁.reverse.filter (fun m => m.token_count == 0) = S₁.reverse :=
          List.filter_eq_self.mpr fun m hm => by
            simp [hz m (List.mem_reverse.mp hm)]
        rw [hfil, List.reverse_reverse]
      | cons _ hnil =>
        rw [List.sublist_nil.mp hnil, List.append_nil] at hSeq
        rw [hSeq]
        exact tokenBudget_fits W hW S₁ (by
          rw [sumTokens_eq_zero hz]
          exact_mod_cast le_of_lt hW)
    · push_neg at hn
      have hstep : tokenBudgetFold W ([], 0) n = ([n], 0 + (n.token_count : Int)) :=
        tokenBudgetFold_keep W n [] 0
          (by intro h; rcases h.2 with h2 | h2 <;> omega) (Or.inr (by omega))
      have hinv := budgetFold_inv W hW rest [n] (0 + (n.token_count : Int)) (by simp)
        (by simp [sumTokens]) (by omega)
      have hsumB : (sumTokens (tokenBudget W l) : Int) ≤ W := by
        unfold tokenBudget
        rw [hrev, List.foldl_cons, hstep, hinv.1]
        exact hinv.2.1
      refine tokenBudget_fits W hW S (le_trans ?_ hsumB)
      exact_mod_cast sumTokens_le_of_sublist hS

/-- Pass 1 is the identity when every tool response in the list is preceded by
an assistant carrying its id (or covered by the incoming map). -/
theorem cleanupPass1_id :
    ∀ (msgs : List MessageRecord) (amap : List (MessageRecord × List String))
      (resolved : List String),
      (∀ (l₁ l₂ : List MessageRecord) (t : MessageRecord), msgs = l₁ ++ t :: l₂ →
        isToolRespRec t = true →
        (∃ p ∈ amap, toolRespId t ∈ p.2) ∨
        (∃ A ∈ l₁, isAssistantRec A = true ∧ toolRespId t ∈ asstCallIds A)) →
      (cleanupPass1 msgs amap resolved).1 = msgs := by
  intro msgs
  induction msgs with
  | nil => intro amap resolved _; rfl
  | cons x rest ih =>
    intro amap resolved H
    unfold cleanupPass1
    split
    next hx =>
      dsimp only
      split
      next hemp =>
        have hxe : asstCallIds x = [] := by
          cases hcase : asstCallIds x with
          | nil => rfl
          | cons a l =>
            rw [hcase] at hemp
            simp [List.isEmpty] at hemp
        have hrest : ∀ (l₁ l₂ : List MessageRecord) (t : MessageRecord),
            rest = l₁ ++ t :: l₂ → isToolRespRec t = true →
            (∃ p ∈ amap, toolRespId t ∈ p.2) ∨
            (∃ A ∈ l₁, isAssistantRec A = true ∧ toolRespId t ∈ asstCallIds A) := by
          intro l₁ l₂ t heq htool
          rcases H (x :: l₁) l₂ t (by rw [heq]; rfl) htool with h | ⟨A, hA, h1, h2⟩
          · exact Or.inl h
          · rcases List.mem_cons.mp hA with hAx | hAl
            · exfalso
              rw [hAx, hxe] at h2
              exact absurd h2 (List.not_mem_nil _)
            · exact Or.inr ⟨A, hAl, h1, h2⟩
        rw [ih amap resolved hrest]
      next hemp =>
        have hrest : ∀ (l₁ l₂ : List MessageRecord) (t : MessageRecord),
            rest = l₁ ++ t :: l₂ → isToolRespRec t = true →
            (∃ p ∈ amap ++ [(x, asstCallIds x)], toolRespId t ∈ p.2) ∨
            (∃ A ∈ l₁, isAssistantRec A = true ∧ toolRespId t ∈ asstCallIds A) := by
          intro l₁ l₂ t heq htool
          rcases H (x :: l₁) l₂ t (by rw [heq]; rfl) htool with ⟨p, hp, hpid⟩ | ⟨A, hA, h1, h2⟩
          · exact Or.inl ⟨p, List.mem_append_left _ hp, hpid⟩
          · rcases List.mem_cons.mp hA with hAx | hAl
            · exact Or.inl ⟨(x, asstCallIds x), List.mem_append_right _ (by simp),
                by rw [← hAx]; exact h2⟩
            · exact Or.inr ⟨A, hAl, h1, h2⟩
        rw [ih _ resolved hrest]
    next hx =>
      split
      next htoolx =>
        split
        next hany =>
          dsimp only
          have hrest : ∀ (l₁ l₂ : List MessageRecord) (t : MessageRecord),
              rest = l₁ ++ t :: l₂ → isToolRespRec t = true →
              (∃ p ∈ amap, toolRespId t ∈ p.2) ∨
              (∃ A ∈ l₁, isAssistantRec A = true ∧ toolRespId t ∈ asstCallIds A) := by
            intro l₁ l₂ t heq htool
            rcases H (x :: l₁) l₂ t (by rw [heq]; rfl) htool with h | ⟨A, hA, h1, h2⟩
            · exact Or.inl h
            · rcases List.mem_cons.mp hA with hAx | hAl
              · exfalso
                rw [hAx] at h1
                exact not_asst_and_tool h1 htoolx
              · exact Or.inr ⟨A, hAl, h1, h2⟩
          rw [ih amap _ hrest]
        next hany =>
          exfalso
          rcases H [] rest x rfl htoolx with ⟨p, hp, hpid⟩ | ⟨A, hA, _, _⟩
          · exact hany (List.any_eq_true.mpr ⟨p, hp, string_contains_iff.mpr hpid⟩)
          · exact absurd hA (List.not_mem_nil _)
      next htoolx =>
        dsimp only
        have hrest : ∀ (l₁ l₂ : List MessageRecord) (t : MessageRecord),
            rest = l₁ ++ t :: l₂ → isToolRespRec t = true →
            (∃ p ∈ amap, toolRespId t ∈ p.2) ∨
            (∃ A ∈ l₁, isAssistantRec A = true ∧ toolRespId t ∈ asstCallIds A) := by
          intro l₁ l₂ t heq htool
          rcases H (x :: l₁) l₂ t (by rw [heq]; rfl) htool with h | ⟨A, hA, h1, h2⟩
          · exact Or.inl h
          · rcases List.mem_cons.mp hA with hAx | hAl
            · exact absurd (hAx ▸ h1) hx
            · exact Or.inr ⟨A, hAl, h1, h2⟩
        rw [ih amap resolved hrest]

/-- Pass 2 with an empty skip list is the identity when every assistant found
in the map is fully resolved. -/
theorem cleanupPass2_id (amap : List (MessageRecord × List String))
    (resolved : List String) :
    ∀ (msgs : List MessageRecord),
      (∀ m ∈ msgs, m.role = "assistant" →
        ∀ p, amap.find? (fun q => q.1.uid == m.uid) = some p →
          p.2.all (fun i => resolved.contains i) = true) →
      cleanupPass2 amap resolved msgs [] = msgs := by
  intro msgs
  induction msgs with
  | nil => intro _; rfl
  | cons x rest ih =>
    intro H
    have hrest : ∀ m ∈ rest, m.role = "assistant" →
        ∀ p, amap.find? (fun q => q.1.uid == m.uid) = some p →
          p.2.all (fun i => resolved.contains i) = true :=
      fun m hm => H m (List.mem_cons_of_mem _ hm)
    unfold cleanupPass2
    split
    next hxrole =>
      have hrole : x.role = "assistant" := by simpa using hxrole
      split
      next p' hfind =>
        split
        next =>
          rw [if_pos (H x (List.mem_cons_self _ _) hrole p' hfind), ih hrest]
        next =>
          rw [ih hrest]
      next =>
        rw [ih hrest]
    next =>
      split
      next =>
        rw [if_neg (by simp [List.contains]), ih hrest]
      next =>
        rw [ih hrest]

/-- The tool-call-pairing cleanup is idempotent over a uid-distinct base list
with globally unique tool-call ids. -/
theorem cleanupToolPairs_id (B : List MessageRecord)
    (hBN : (B.map MessageRecord.uid).Nodup)
    (hD : ∀ m ∈ B, ∀ m' ∈ B, m.uid ≠ m'.uid →
      ∀ i ∈ asstCallIds m, i ∉ asstCallIds m') :
    cleanupToolPairs (cleanupToolPairs B) = cleanupToolPairs B := by
  have hcore := cleanup_pairing_core B hBN hD
  have hTsub : (cleanupToolPairs B).Sublist B := cleanupToolPairs_sublist B
  have hTN : ((cleanupToolPairs B).map MessageRecord.uid).Nodup :=
    hBN.sublist (hTsub.map _)
  have hTnd : (cleanupToolPairs B).Nodup := hTN.of_map
  have hcov : ∀ (l₁ l₂ : List MessageRecord) (t : MessageRecord),
      cleanupToolPairs B = l₁ ++ t :: l₂ → isToolRespRec t = true →
      (∃ p ∈ ([] : List (MessageRecord × List String)), toolRespId t ∈ p.2) ∨
      (∃ A ∈ l₁, isAssistantRec A = true ∧ toolRespId t ∈ asstCallIds A) := by
    intro l₁ l₂ t heq htool
    right
    have htT : t ∈ cleanupToolPairs B := by rw [heq]; simp
    obtain ⟨A, hAa, hid, u, w, hTd, htw⟩ := hcore.2 t htT htool
    obtain ⟨w₁, w₂, hw⟩ := List.append_of_mem htw
    have hTd2 : cleanupToolPairs B = (u ++ A :: w₁) ++ t :: w₂ := by
      rw [hTd, hw]
      simp
    have hnd1 : t ∉ (u ++ A :: w₁) := by
      have hnd := hTnd
      rw [hTd2] at hnd
      have hdisj := List.disjoint_of_nodup_append hnd
      intro hmem
      exact hdisj hmem (List.mem_cons_self _ _)
    have hnd2 : t ∉ l₁ := by
      have hnd := hTnd
      rw [heq] at hnd
      have hdisj := List.disjoint_of_nodup_append hnd
      intro hmem
      exact hdisj hmem (List.mem_cons_self _ _)
    obtain ⟨h1, _⟩ := decomp_unique l₁ (u ++ A :: w₁) t l₂ w₂ hnd2 hnd1
      (heq.symm.trans hTd2)
    exact ⟨A, by rw [h1]; simp, hAa, hid⟩
  have h1 : (cleanupPass1 (cleanupToolPairs B) [] []).1 = cleanupToolPairs B :=
    cleanupPass1_id _ [] [] hcov
  by_cases hmt : (cleanupPass1 (cleanupToolPairs B) [] []).2.1.isEmpty
  · show (let out := cleanupPass1 (cleanupToolPairs B) [] [];
      if out.2.1.isEmpty then out.1 else cleanupPass2 out.2.1 out.2.2 out.1 []) =
      cleanupToolPairs B
    rw [if_pos hmt]
    exact h1
  · show (let out := cleanupPass1 (cleanupToolPairs B) [] [];
      if out.2.1.isEmpty then out.1 else cleanupPass2 out.2.1 out.2.2 out.1 []) =
      cleanupToolPairs B
    rw [if_neg hmt, h1]
    apply cleanupPass2_id
    intro m hmT hrole p hfind
    have hpmem : p ∈ (cleanupPass1 (cleanupToolPairs B) [] []).2.1 :=
      List.mem_of_find?_eq_some hfind
    have hpuid : p.1.uid = m.uid := by simpa using List.find?_some hfind
    rcases cleanupPass1_amap_mem _ [] [] p hpmem with hp0 | ⟨hpin, hpasst, hpids, _⟩
    · exact absurd hp0 (List.not_mem_nil _)
    rw [h1] at hpin
    have hpm : p.1 = m := List.inj_on_of_nodup_map hTN hpin hmT hpuid
    rw [List.all_eq_true]
    intro i hi
    have hi2 : i ∈ asstCallIds m := by
      rw [← hpm]
      exact hpids ▸ hi
    obtain ⟨t, htT, httool, htid⟩ := hcore.1 m hmT (hpm ▸ hpasst) i hi2
    have hres := cleanupPass1_tool_resolved _ [] [] t (h1 ▸ htT) httool
    rw [htid] at hres
    exact string_contains_iff.mpr hres

/-- C4: with the current time held fixed (and distinct record objects with
globally unique tool-call ids, as the record constructors guarantee), `trim()`
is idempotent — a second call removes nothing and changes nothing. -/
theorem trim_idempotent (now : Int) (ctx : ConversationContext)
    (hN : (ctx.messages.map MessageRecord.uid).Nodup)
    (hD : ∀ m ∈ ctx.messages, ∀ m' ∈ ctx.messages, m.uid ≠ m'.uid →
      ∀ i ∈ asstCallIds m, i ∉ asstCallIds m') :
    (ctx.trim now).trim now = ctx.trim now := by
  have hBsub : (tokenBudget ctx.context_window
      (ageFilter now ctx.context_age ctx.messages)).Sublist ctx.messages :=
    (tokenBudget_sublist _ _).trans (List.filter_sublist _)
  have hBN := hN.sublist (hBsub.map MessageRecord.uid)
  have hBD : ∀ m ∈ tokenBudget ctx.context_window
        (ageFilter now ctx.context_age ctx.messages),
      ∀ m' ∈ tokenBudget ctx.context_window
        (ageFilter now ctx.context_age ctx.messages),
      m.uid ≠ m'.uid → ∀ i ∈ asstCallIds m, i ∉ asstCallIds m' := by
    intro m hm m' hm' hne i hi1 hi2
    exact hD m (hBsub.mem hm) m' (hBsub.mem hm') hne i hi1 hi2
  have hTB : (cleanupToolPairs (tokenBudget ctx.context_window
      (ageFilter now ctx.context_age ctx.messages))).Sublist
      (tokenBudget ctx.context_window (ageFilter now ctx.context_age ctx.messages)) :=
    cleanupToolPairs_sublist _
  have h1 : ageFilter now ctx.context_age (cleanupToolPairs (tokenBudget ctx.context_window
      (ageFilter now ctx.context_age ctx.messages))) =
      cleanupToolPairs (tokenBudget ctx.context_window
        (ageFilter now ctx.context_age ctx.messages)) := by
    refine List.filter_eq_self.mpr fun m hm => ?_
    have hmA : m ∈ ageFilter now ctx.context_age ctx.messages :=
      (tokenBudget_sublist _ _).mem (hTB.mem hm)
    exact (List.mem_filter.mp hmA).2
  have h2 : tokenBudget ctx.context_window (cleanupToolPairs (tokenBudget ctx.context_window
      (ageFilter now ctx.context_age ctx.messages))) =
      cleanupToolPairs (tokenBudget ctx.context_window
        (ageFilter now ctx.context_age ctx.messages)) :=
    tokenBudget_stable _ _ _ hTB
  have h3 := cleanupToolPairs_id _ hBN hBD
  show { ctx with messages := cleanupToolPairs (tokenBudget ctx.context_window
      (ageFilter now ctx.context_age (cleanupToolPairs (tokenBudget ctx.context_window
        (ageFilter now ctx.context_age ctx.messages))))) } =
    { ctx with messages := cleanupToolPairs (tokenBudget ctx.context_window
      (ageFilter now ctx.context_age ctx.messages)) }
  rw [h1, h2, h3]

/-- Witness for C4 at the concrete context. -/
theorem trim_idempotent_witness :
    ((c3ctx.messages.map MessageRecord.uid).Nodup ∧
     ∀ m ∈ c3ctx.messages, ∀ m' ∈ c3ctx.messages, m.uid ≠ m'.uid →
       ∀ i ∈ asstCallIds m, i ∉ asstCallIds m') ∧
    (c3ctx.trim 0).trim 0 = c3ctx.trim 0 :=
  ⟨⟨by decide, by decide⟩, trim_idempotent 0 c3ctx (by decide) (by decide)⟩
